import Mathlib

/-!
Shallow embedding of the `build-your-own-git-basics` repository
(`src/basic_git_1.py`, `src/basic_git_2.py`, `src/basic_git_3.py`).

Modelling conventions, stated once:

* A Python `str` is a sequence of Unicode code points; it is modelled as
  a Lean `String` (or `List Char` where index arithmetic matters).
  Python `len(s)` is `String.length`, `s.encode("utf-8")`'s length is
  `String.utf8ByteSize`.
* `zlib.compress`/`zlib.decompress` form an inverse pair external to the
  repository, so the object store is modelled as holding the
  decompressed character sequence that `_store_object` produces.
* `hashlib.sha1(...).hexdigest()` is an external library function; it is
  modelled as a parameter `digest : List Char -> String` applied to the
  exact preimage that `_hash_object` builds.  Where a claim needs the
  design's collision-freedom assumption, `Function.Injective digest`
  is an explicit hypothesis.
* `json.dumps` applied to the commit dictionary is likewise a parameter
  `dumps : CommitData -> String`; the design's assumption that distinct
  commit records serialize distinctly is the explicit hypothesis
  `Function.Injective dumps`.
* `os.path.abspath` is dropped: working-tree files are keyed by the path
  string the caller supplies, which is how every operation refers to them.
* Filesystem directories of key/value files (`refs/heads`, `objects`, the
  working tree) are association lists with a write-through `setKey`
  (a file write replaces the old content of that one file).
* `time.time()` is modelled by a `clock` field that each commit reads and
  advances; no claim depends on actual timestamp values.
-/

set_option maxHeartbeats 4000000
set_option maxRecDepth 8192

/-- The NUL character used as the header delimiter in object encodings. -/
def nulC : Char := Char.ofNat 0

/-- Decimal digit character for `d` (used to model Python's decimal
formatting of lengths inside f-strings). -/
def digitChar (d : Nat) : Char :=
  match d with
  | 0 => '0' | 1 => '1' | 2 => '2' | 3 => '3' | 4 => '4'
  | 5 => '5' | 6 => '6' | 7 => '7' | 8 => '8' | _ => '9'

/-- Fuel-driven decimal rendering (structural recursion so that concrete
witness computations reduce inside the kernel). -/
def natCharsAux : Nat → Nat → List Char
  | 0, _ => []
  | fuel + 1, n =>
    if n < 10 then [digitChar n]
    else natCharsAux fuel (n / 10) ++ [digitChar (n % 10)]

/-- Decimal rendering of a natural number, modelling Python's `str(n)` /
f-string formatting of a nonnegative integer. -/
def natChars (n : Nat) : List Char :=
  natCharsAux (n + 1) n

/-- Left fold reading a decimal digit string back to a number (used only in
proofs, as a left inverse of `natChars`). -/
def charsToNat (l : List Char) : Nat :=
  l.foldl (fun a c => 10 * a + (c.toNat - 48)) 0

/-- First-match lookup in an association list: the content of file `key`
in a directory. -/
def getKey {α : Type} : List (String × α) → String → Option α
  | [], _ => none
  | (k, v) :: r, key => if k = key then some v else getKey r key

/-- Overwriting insert: writing file `key` replaces its old content, or
creates the file. -/
def setKey {α : Type} : List (String × α) → String → α → List (String × α)
  | [], key, v => [(key, v)]
  | (k, w) :: r, key, v => if k = key then (key, v) :: r else (k, w) :: setKey r key v

/-- Removing file `key` from a directory (`os.remove`). -/
def removeKey {α : Type} : List (String × α) → String → List (String × α)
  | [], _ => []
  | (k, w) :: r, key => if k = key then r else (k, w) :: removeKey r key

/-- The keys of an association list, in order. -/
def keysOf {α : Type} (l : List (String × α)) : List String :=
  l.map Prod.fst

/-- Python's `str.strip()` on a character list: drop whitespace from both
ends. -/
def pyStripL (l : List Char) : List Char :=
  (((l.dropWhile Char.isWhitespace).reverse.dropWhile Char.isWhitespace)).reverse

/-- Python's `str.strip()`. -/
def pyStrip (s : String) : String :=
  String.mk (pyStripL s.toList)

/-- Python's `str.find(c)`: index of the first occurrence, `-1` if absent. -/
def pyFindChar (l : List Char) (c : Char) : Int :=
  match l with
  | [] => -1
  | x :: r =>
    if x = c then 0
    else
      let i := pyFindChar r c
      if i < 0 then -1 else i + 1

/-- Python slicing `l[:i]` for a possibly negative index. -/
def pySliceTo (l : List Char) (i : Int) : List Char :=
  if 0 ≤ i then l.take i.toNat else l.take (l.length - (-i).toNat)

/-- Python slicing `l[i:]` for a possibly negative index. -/
def pySliceFrom (l : List Char) (i : Int) : List Char :=
  if 0 ≤ i then l.drop i.toNat else l.drop (l.length - (-i).toNat)

/-- Python's no-argument `str.split()`: maximal runs of non-whitespace. -/
def splitWsAux : List Char → List Char → List (List Char)
  | [], acc => if acc = [] then [] else [acc.reverse]
  | c :: r, acc =>
    if c.isWhitespace then
      (if acc = [] then splitWsAux r [] else acc.reverse :: splitWsAux r [])
    else splitWsAux r (c :: acc)

/-- Python's no-argument `str.split()`. -/
def splitWsL (l : List Char) : List (List Char) :=
  splitWsAux l []

/-- The exact byte sequence `_hash_object` feeds to the SHA-1 hasher,
as a character list: `obj_type ++ " " ++ str(len(data.encode("utf-8")))
++ NUL ++ data` (basic_git_3.py lines 67-72).  Note the length here is the
UTF-8 byte length of the content. -/
def hashPreimage (objType : String) (data : String) : List Char :=
  objType.toList ++ ' ' :: natChars data.utf8ByteSize ++ nulC :: data.toList

/-- `BasicGit._hash_object` (basic_git_3.py lines 67-72): digest of the
typed, length-prefixed content. -/
def hashObject (digest : List Char → String) (data : String) (objType : String) : String :=
  digest (hashPreimage objType data)

/-- The decompressed character sequence `_store_object` writes
(basic_git_3.py lines 74-83): the f-string
`obj_type ++ " " ++ str(len(data)) ++ NUL ++ data`.  Note the length here
is `len(data)` — the number of code points of the Python `str`, not the
UTF-8 byte length used by `_hash_object`. -/
def storeEncode (objType : String) (data : String) : List Char :=
  objType.toList ++ ' ' :: natChars data.length ++ nulC :: data.toList

/-- `BasicGit._store_object` (basic_git_3.py lines 74-83): write the
compressed encoding at the location derived from `sha` (compression is
modelled away, see the header comment). -/
def storeObject (store : List (String × List Char)) (data : String) (sha : String)
    (objType : String) : List (String × List Char) :=
  setKey store sha (storeEncode objType data)

/-- `BasicGit._read_object` (basic_git_3.py lines 85-97): look up the entry,
decompress, split at the first NUL into header and content, and unpack the
header on whitespace into `obj_type, size`.  A missing entry raises
`ValueError(f"Object ... not found")`; a header that does not unpack into
exactly two fields raises a `ValueError` from tuple unpacking.  The parsed
`size` field is bound but never compared against the content. -/
def readObject (store : List (String × List Char)) (sha : String) :
    Except String (String × String) :=
  match getKey store sha with
  | none => Except.error ("Object " ++ sha ++ " not found")
  | some decompressed =>
    let nullIndex : Int := pyFindChar decompressed nulC
    let header := pySliceTo decompressed nullIndex
    let content := pySliceFrom decompressed (nullIndex + 1)
    match splitWsL header with
    | [objType, _size] => Except.ok (String.mk objType, String.mk content)
    | _ => Except.error "ValueError: header did not unpack into two fields"

/-- The commit dictionary built by `BasicGit.commit`
(basic_git_3.py lines 159-164): message, timestamp, the staged-path to
blob-address mapping (stored under the dictionary key `"file"` in v3), and
the parent field (`None` ↦ `none`, a string `s` ↦ `some s`; in particular
an unborn branch yields `some ""`, not `none`). -/
structure CommitData where
  message : String
  timestamp : Nat
  file : List (String × String)
  parent : Option String
deriving DecidableEq, Repr

/-- A decoded object of the store: tagged by kind, as the repository's
two object types. -/
inductive Obj where
  | blob (content : String)
  | commit (data : CommitData)
deriving DecidableEq, Repr

/-- The address `_hash_object` assigns to an object: blobs are hashed over
their content, commits over their `json.dumps` serialization. -/
def addrOf (digest : List Char → String) (dumps : CommitData → String) : Obj → String
  | Obj.blob c => hashObject digest c "blob"
  | Obj.commit d => hashObject digest (dumps d) "commit"

/-- The durable state of one repository plus its working tree. -/
structure GitState where
  fs : List (String × String)
  gitdirExists : Bool
  head : String
  branches : List (String × String)
  objects : List (String × Obj)
  index : String
  clock : Nat
deriving DecidableEq, Repr

/-- The symbolic-reference marker `HEAD` is written with. -/
def headRefMark : List Char := "ref: refs/heads/".toList

/-- Does `l` start with `p`? -/
def startsWithL : List Char → List Char → Bool
  | [], _ => true
  | _ :: _, [] => false
  | p :: ps, c :: cs => (p = c) && startsWithL ps cs

/-- `BasicGit._get_current_branch` (basic_git_3.py lines 112-121): strip the
HEAD file content; if it starts with `ref: refs/heads/` return the suffix,
else `None`. -/
def currentBranchOf (head : String) : Option String :=
  let c := pyStripL head.toList
  if startsWithL headRefMark c then some (String.mk (c.drop headRefMark.length))
  else none

/-- `BasicGit._get_current_commit` (basic_git_3.py lines 123-132): resolve
the current branch, read its file if it exists, and return the stripped
content (the empty string for an unborn branch — not `None`). -/
def currentCommit (s : GitState) : Option String :=
  match currentBranchOf s.head with
  | none => none
  | some b =>
    match getKey s.branches b with
    | none => none
    | some tip => some (pyStrip tip)

/-- Result of `BasicGit.init`. -/
inductive InitResult where
  | repoExists
  | initialized
deriving DecidableEq, Repr

/-- `BasicGit.init` (basic_git_3.py lines 39-65): if the repository
directory exists, report and change nothing; otherwise create the
directories, a symbolic HEAD at `main`, an empty `main` branch file and an
empty index. -/
def initOp (s : GitState) : GitState × InitResult :=
  if s.gitdirExists then (s, InitResult.repoExists)
  else
    ({ fs := s.fs
       gitdirExists := true
       head := "ref: refs/heads/main"
       branches := [("main", "")]
       objects := []
       index := ""
       clock := s.clock }, InitResult.initialized)

/-- A freshly initialized repository over working tree `fs`. -/
def initState (fs : List (String × String)) (clock : Nat) : GitState :=
  { fs := fs
    gitdirExists := true
    head := "ref: refs/heads/main"
    branches := [("main", "")]
    objects := []
    index := ""
    clock := clock }

/-- `BasicGit.add` for one path (basic_git_3.py lines 99-110): if the path
exists in the working tree, append it plus a newline to the index;
otherwise report an error and leave the index alone. -/
def addOp (path : String) (s : GitState) : GitState :=
  if (getKey s.fs path).isSome then { s with index := s.index ++ path ++ "\n" }
  else s

/-- The user editing (or creating) a working-tree file between commands. -/
def editFile (path content : String) (s : GitState) : GitState :=
  { s with fs := setKey s.fs path content }

/-- The user deleting a working-tree file between commands. -/
def removeFile (path : String) (s : GitState) : GitState :=
  { s with fs := removeKey s.fs path }

/-- Result of `BasicGit.commit` across both implementations, mirroring the
distinct reported outcomes. -/
inductive CommitResult where
  | nothingToCommit
  | stagedFileMissing (path : String)
  | committed (sha : String)
  | detachedHead (sha : String)
  | noValidFiles
deriving DecidableEq, Repr

/-- `BasicGit.commit` of basic_git_3.py (lines 134-182).  The whole index
content is stripped and treated as ONE staged path.  If it is empty:
nothing to commit.  If the path is not in the working tree: report the
error and CLEAR the index.  Otherwise store the blob, build the commit
record with `parent := _get_current_commit()` (read before any update),
store it, advance the current branch if HEAD is symbolic (creating the
branch file if need be), and clear the index. -/
def commitV3 (digest : List Char → String) (dumps : CommitData → String)
    (message : String) (s : GitState) : GitState × CommitResult :=
  let stagedPath := pyStrip s.index
  if stagedPath = "" then (s, CommitResult.nothingToCommit)
  else
    match getKey s.fs stagedPath with
    | none => ({ s with index := "" }, CommitResult.stagedFileMissing stagedPath)
    | some content =>
      let blobSha := hashObject digest content "blob"
      let objects1 := setKey s.objects blobSha (Obj.blob content)
      let cd : CommitData :=
        { message := message
          timestamp := s.clock
          file := [(stagedPath, blobSha)]
          parent := currentCommit s }
      let commitStr := dumps cd
      let commitSha := hashObject digest commitStr "commit"
      let objects2 := setKey objects1 commitSha (Obj.commit cd)
      match currentBranchOf s.head with
      | some b =>
        ({ s with objects := objects2
                  branches := setKey s.branches b commitSha
                  index := ""
                  clock := s.clock + 1 }, CommitResult.committed commitSha)
      | none =>
        ({ s with objects := objects2
                  index := ""
                  clock := s.clock + 1 }, CommitResult.detachedHead commitSha)

/-- Newline splitting of the index file content (`f.readlines()`-style);
`acc` holds the reversed characters of the current line. -/
def splitNl : List Char → List Char → List String
  | [], acc => [String.mk acc.reverse]
  | c :: r, acc =>
    if c = '\n' then String.mk acc.reverse :: splitNl r []
    else splitNl r (c :: acc)

/-- The staged-path list of basic_git_2.py's commit (lines 290-296):
all lines of the index, stripped, the empty ones dropped. -/
def stagedLines (index : String) : List String :=
  ((splitNl index.toList []).map pyStrip).filter (fun l => l ≠ "")

/-- `BasicGit.commit` of basic_git_2.py AS SHIPPED (lines 278-351).  The
skeleton's `_hash_object` body is the Task 3.1 placeholder
`encoded_data = None` followed by `raise NotImplementedError(...)`, so for
every staged path that exists on disk the `try` block raises and the
`except` clause reports and skips it; every missing path is skipped with a
warning before the `try`.  Hence `files_to_commit` is always empty and the
operation always ends at the `No valid files to commit.` guard (lines
323-325), which returns WITHOUT touching the index, the branches or the
object store. -/
def commitV2 (_message : String) (s : GitState) : GitState × CommitResult :=
  let staged := stagedLines s.index
  if staged = [] then (s, CommitResult.nothingToCommit)
  else (s, CommitResult.noValidFiles)

/-- Result of branch creation / deletion (`BasicGit.branch`). -/
inductive BranchResult where
  | branchExists
  | created
  | branchNotFound
  | cannotDeleteCurrent
  | deleted
deriving DecidableEq, Repr

/-- `BasicGit.branch(name)` — creation path (basic_git_3.py lines 201-211):
if the branch file exists, report and change nothing; otherwise write a new
branch file containing `current_commit_sha if current_commit_sha else ""`,
i.e. the current commit when it is a non-empty string, else empty. -/
def branchCreate (name : String) (s : GitState) : GitState × BranchResult :=
  if (getKey s.branches name).isSome then (s, BranchResult.branchExists)
  else
    ({ s with branches := setKey s.branches name ((currentCommit s).getD "") },
     BranchResult.created)

/-- `BasicGit.branch(delete=name)` (basic_git_3.py lines 186-199). -/
def branchDelete (name : String) (s : GitState) : GitState × BranchResult :=
  if (getKey s.branches name).isSome then
    if currentBranchOf s.head = some name then (s, BranchResult.cannotDeleteCurrent)
    else ({ s with branches := removeKey s.branches name }, BranchResult.deleted)
  else (s, BranchResult.branchNotFound)

/-- `BasicGit.checkout` (basic_git_3.py lines 228-241): rewrite HEAD when
the branch exists, report an error otherwise. -/
def checkoutOp (name : String) (s : GitState) : GitState :=
  if (getKey s.branches name).isSome then { s with head := "ref: refs/heads/" ++ name }
  else s

/-- Repository states reachable from a freshly initialized repository by
the v3 operations, with the user free to edit the working tree in
between. -/
inductive Reachable (digest : List Char → String) (dumps : CommitData → String) :
    GitState → Prop where
  | start (fs : List (String × String)) (clock : Nat) :
      Reachable digest dumps (initState fs clock)
  | doInit {s} : Reachable digest dumps s → Reachable digest dumps (initOp s).1
  | doAdd {s} (path : String) : Reachable digest dumps s →
      Reachable digest dumps (addOp path s)
  | doCommit {s} (msg : String) : Reachable digest dumps s →
      Reachable digest dumps (commitV3 digest dumps msg s).1
  | doBranch {s} (name : String) : Reachable digest dumps s →
      Reachable digest dumps (branchCreate name s).1
  | doDelete {s} (name : String) : Reachable digest dumps s →
      Reachable digest dumps (branchDelete name s).1
  | doCheckout {s} (name : String) : Reachable digest dumps s →
      Reachable digest dumps (checkoutOp name s)
  | doEdit {s} (path content : String) : Reachable digest dumps s →
      Reachable digest dumps (editFile path content s)
  | doRemove {s} (path : String) : Reachable digest dumps s →
      Reachable digest dumps (removeFile path s)

/-- Age rank of a key: position of its entry in the store, oldest first.
Fresh keys are appended by `setKey` and overwrites replace in place, so an
entry's rank never changes and a new key receives the largest rank. -/
def rankOf {α : Type} (l : List (String × α)) (sha : String) : Nat :=
  List.findIdx (fun k => k = sha) (keysOf l)

/-- `BasicGit.log`'s loop (basic_git_3.py lines 286-294 with `_log_commit`,
lines 263-284), fuelled: `logEnds objects n cur = true` says the
`while current_commit:` loop starting from `cur` finishes within `n`
iterations.  One iteration reads the object at the current address;
a missing object or a non-commit object ends the loop (`_log_commit`
returns `None`), otherwise the loop continues with the commit's parent;
a `None` or empty-string current value is falsy and ends the loop. -/
def logEnds (objects : List (String × Obj)) : Nat → Option String → Bool
  | _, none => true
  | n, some sha =>
    if sha = "" then true
    else
      match n with
      | 0 => false
      | Nat.succ m =>
        match getKey objects sha with
        | some (Obj.commit c) => logEnds objects m c.parent
        | _ => true

/-- Store soundness: every stored entry sits at the address `_hash_object`
computes for it (all writes go through `_store_object` with that sha). -/
def InvA (digest : List Char → String) (dumps : CommitData → String)
    (objects : List (String × Obj)) : Prop :=
  ∀ e ∈ objects, e.1 = addrOf digest dumps e.2

/-- Branch soundness: every branch file is empty (after stripping) or its
stripped content is the address of a stored commit. -/
def InvB (objects : List (String × Obj)) (branches : List (String × String)) : Prop :=
  ∀ name tip, getKey branches name = some tip →
    pyStrip tip = "" ∨ ∃ c, getKey objects (pyStrip tip) = some (Obj.commit c)

/-- History soundness: every stored commit's non-trivial parent is a stored
commit of strictly smaller age rank (it was stored strictly earlier). -/
def InvC (objects : List (String × Obj)) : Prop :=
  ∀ sha c, getKey objects sha = some (Obj.commit c) →
    ∀ p, c.parent = some p → p ≠ "" →
      (∃ d, getKey objects p = some (Obj.commit d)) ∧ rankOf objects p < rankOf objects sha

/-- The conjunction of the store/reference invariants, plus uniqueness of
branch filenames (a directory holds one file per name). -/
structure RepoInv (digest : List Char → String) (dumps : CommitData → String)
    (s : GitState) : Prop where
  a : InvA digest dumps s.objects
  b : InvB s.objects s.branches
  c : InvC s.objects
  ub : (keysOf s.branches).Nodup

/-- Escaping for the concrete injective serializer used by witnesses:
backslash-escape the two metacharacters. -/
def escChars : List Char → List Char
  | [] => []
  | c :: r =>
    if c = '\\' ∨ c = '|' then '\\' :: c :: escChars r
    else c :: escChars r

/-- A length-terminated escaped block: `escChars l` followed by `|`. -/
def encBlock (l : List Char) : List Char :=
  escChars l ++ ['|']

/-- Decoder for one escaped block; left inverse of `encBlock`. -/
def decBlock : List Char → Option (List Char × List Char)
  | [] => none
  | c :: r =>
    if c = '\\' then
      match r with
      | [] => none
      | c2 :: r2 => (decBlock r2).map (fun p => (c2 :: p.1, p.2))
    else if c = '|' then some ([], r)
    else (decBlock r).map (fun p => (c :: p.1, p.2))

/-- A concrete injective digest for witnesses: render every character of
the preimage as its code point in decimal followed by a comma.  The output
consists of digits and commas only, so it is whitespace-free. -/
def digitEnc (l : List Char) : String :=
  String.mk (l.flatMap (fun c => natChars c.toNat ++ [',']))

/-- A concrete injective commit serializer for witnesses, standing in for
`json.dumps` where a witness must discharge the injectivity hypothesis. -/
def encCD (d : CommitData) : String :=
  String.mk (encBlock d.message.toList ++ encBlock (natChars d.timestamp) ++
    encBlock (natChars d.file.length) ++
    (d.file.flatMap (fun p => encBlock p.1.toList ++ encBlock p.2.toList)) ++
    (match d.parent with
     | none => ['N']
     | some s => 'S' :: encBlock s.toList))

/-! ### Association-list lemmas -/

theorem getKey_setKey_self {α : Type} (l : List (String × α)) (k : String) (v : α) :
    getKey (setKey l k v) k = some v := by
  induction l with
  | nil => simp [setKey, getKey]
  | cons e r ih =>
    obtain ⟨k1, v1⟩ := e
    by_cases h : k1 = k
    · simp [setKey, h, getKey]
    · simp [setKey, h, getKey, ih]

theorem getKey_setKey_ne {α : Type} (l : List (String × α)) (k k2 : String) (v : α)
    (h : k2 ≠ k) : getKey (setKey l k v) k2 = getKey l k2 := by
  induction l with
  | nil => simp [setKey, getKey, Ne.symm h]
  | cons e r ih =>
    obtain ⟨k1, v1⟩ := e
    by_cases h1 : k1 = k
    · subst h1
      simp [setKey, getKey, Ne.symm h]
    · simp only [setKey, if_neg h1, getKey]
      by_cases h2 : k1 = k2 <;> simp [h2, ih]

theorem mem_setKey {α : Type} (l : List (String × α)) (k : String) (v : α) :
    ∀ e ∈ setKey l k v, e = (k, v) ∨ e ∈ l := by
  induction l with
  | nil => simp [setKey]
  | cons e0 r ih =>
    obtain ⟨k1, v1⟩ := e0
    intro e he
    by_cases h : k1 = k
    · simp only [setKey, if_pos h, List.mem_cons] at he
      rcases he with he | he
      · exact Or.inl he
      · exact Or.inr (List.mem_cons_of_mem _ he)
    · simp only [setKey, if_neg h, List.mem_cons] at he
      rcases he with he | he
      · exact Or.inr (by simp [he])
      · rcases ih e he with h2 | h2
        · exact Or.inl h2
        · exact Or.inr (List.mem_cons_of_mem _ h2)

theorem getKey_mem {α : Type} (l : List (String × α)) (k : String) (v : α)
    (h : getKey l k = some v) : (k, v) ∈ l := by
  induction l with
  | nil => simp [getKey] at h
  | cons e r ih =>
    obtain ⟨k1, v1⟩ := e
    by_cases h1 : k1 = k
    · subst h1
      have h2 : v1 = v := by simpa [getKey] using h
      subst h2
      exact List.mem_cons_self _ _
    · simp only [getKey, if_neg h1] at h
      exact List.mem_cons_of_mem _ (ih h)

theorem mem_keys_of_getKey {α : Type} (l : List (String × α)) (k : String) (v : α)
    (h : getKey l k = some v) : k ∈ keysOf l := by
  have h2 := getKey_mem l k v h
  simpa [keysOf] using List.mem_map_of_mem Prod.fst h2

theorem getKey_eq_none_of_not_mem {α : Type} (l : List (String × α)) (k : String)
    (h : k ∉ keysOf l) : getKey l k = none := by
  induction l with
  | nil => rfl
  | cons e r ih =>
    obtain ⟨k1, v1⟩ := e
    simp only [keysOf, List.map_cons, List.mem_cons] at h
    push_neg at h
    simp only [getKey, if_neg (fun hh : k1 = k => h.1 hh.symm)]
    exact ih h.2

theorem getKey_isSome_of_mem_keys {α : Type} (l : List (String × α)) (k : String)
    (h : k ∈ keysOf l) : (getKey l k).isSome := by
  induction l with
  | nil => simp [keysOf] at h
  | cons e r ih =>
    obtain ⟨k1, v1⟩ := e
    by_cases h1 : k1 = k
    · simp [getKey, h1]
    · simp only [keysOf, List.map_cons, List.mem_cons] at h
      rcases h with h | h
      · exact absurd h.symm h1
      · simp only [getKey, if_neg h1]
        exact ih h

theorem keys_setKey_of_mem {α : Type} (l : List (String × α)) (k : String) (v : α)
    (h : k ∈ keysOf l) : keysOf (setKey l k v) = keysOf l := by
  induction l with
  | nil => simp [keysOf] at h
  | cons e r ih =>
    obtain ⟨k1, v1⟩ := e
    by_cases h1 : k1 = k
    · simp [setKey, h1, keysOf]
    · simp only [keysOf, List.map_cons, List.mem_cons] at h
      rcases h with h | h
      · exact absurd h.symm h1
      · simp only [setKey, if_neg h1, keysOf, List.map_cons]
        have h2 := ih h
        simp only [keysOf] at h2
        rw [h2]

theorem setKey_of_not_mem {α : Type} (l : List (String × α)) (k : String) (v : α)
    (h : k ∉ keysOf l) : setKey l k v = l ++ [(k, v)] := by
  induction l with
  | nil => rfl
  | cons e r ih =>
    obtain ⟨k1, v1⟩ := e
    simp only [keysOf, List.map_cons, List.mem_cons] at h
    push_neg at h
    simp only [setKey, if_neg (fun hh : k1 = k => h.1 hh.symm)]
    rw [ih h.2]
    rfl

theorem mem_keys_removeKey {α : Type} (l : List (String × α)) (k x : String)
    (h : x ∈ keysOf (removeKey l k)) : x ∈ keysOf l := by
  induction l with
  | nil => simpa [removeKey] using h
  | cons e r ih =>
    obtain ⟨k1, v1⟩ := e
    by_cases h1 : k1 = k
    · simp only [removeKey, if_pos h1] at h
      exact List.mem_cons_of_mem _ h
    · simp only [removeKey, if_neg h1, keysOf, List.map_cons, List.mem_cons] at h ⊢
      rcases h with h | h
      · exact Or.inl h
      · exact Or.inr (ih h)

theorem keys_nodup_setKey {α : Type} (l : List (String × α)) (k : String) (v : α)
    (h : (keysOf l).Nodup) : (keysOf (setKey l k v)).Nodup := by
  by_cases hm : k ∈ keysOf l
  · rw [keys_setKey_of_mem l k v hm]; exact h
  · rw [setKey_of_not_mem l k v hm]
    have hk : keysOf (l ++ [(k, v)]) = keysOf l ++ [k] := by simp [keysOf]
    rw [hk, List.nodup_append]
    refine ⟨h, List.nodup_singleton _, ?_⟩
    intro a ha hb
    simp only [List.mem_singleton] at hb
    subst hb
    exact hm ha

theorem keys_nodup_removeKey {α : Type} (l : List (String × α)) (k : String)
    (h : (keysOf l).Nodup) : (keysOf (removeKey l k)).Nodup := by
  induction l with
  | nil => simpa [removeKey] using h
  | cons e r ih =>
    obtain ⟨k1, v1⟩ := e
    simp only [keysOf, List.map_cons, List.nodup_cons] at h
    by_cases h1 : k1 = k
    · simp only [removeKey, if_pos h1]
      exact h.2
    · simp only [removeKey, if_neg h1, keysOf, List.map_cons, List.nodup_cons]
      exact ⟨fun hc => h.1 (mem_keys_removeKey r k k1 hc), ih h.2⟩

theorem getKey_removeKey_some {α : Type} (l : List (String × α)) (k n : String) (v : α)
    (hnd : (keysOf l).Nodup) (h : getKey (removeKey l k) n = some v) :
    getKey l n = some v := by
  induction l with
  | nil => simpa [removeKey] using h
  | cons e r ih =>
    obtain ⟨k1, v1⟩ := e
    simp only [keysOf, List.map_cons, List.nodup_cons] at hnd
    by_cases h1 : k1 = k
    · subst h1
      simp only [removeKey, if_pos rfl] at h
      by_cases h2 : k1 = n
      · subst h2
        exact absurd (mem_keys_of_getKey r k1 v h) hnd.1
      · simp only [getKey, if_neg h2]
        exact h
    · simp only [removeKey, if_neg h1, getKey] at h ⊢
      by_cases h2 : k1 = n
      · simpa [h2] using h
      · simp only [if_neg h2] at h ⊢
        exact ih hnd.2 h

/-! ### findIdx and rank lemmas -/

theorem findIdx_append_of_exists (p : String → Bool) :
    ∀ (ks ks2 : List String), (∃ a ∈ ks, p a = true) →
      List.findIdx p (ks ++ ks2) = List.findIdx p ks := by
  intro ks
  induction ks with
  | nil => intro ks2 h; simp at h
  | cons k r ih =>
    intro ks2 h
    by_cases hk : p k
    · simp [List.findIdx_cons, hk]
    · rcases h with ⟨a, ha, hpa⟩
      rcases List.mem_cons.mp ha with h1 | h1
      · subst h1; exact absurd hpa hk
      · simp only [List.cons_append, List.findIdx_cons, Bool.cond_eq_ite]
        rw [if_neg (by simpa using hk), if_neg (by simpa using hk), ih ks2 ⟨a, h1, hpa⟩]

theorem findIdx_append_of_none (p : String → Bool) :
    ∀ (ks ks2 : List String), (∀ a ∈ ks, p a = false) →
      List.findIdx p (ks ++ ks2) = ks.length + List.findIdx p ks2 := by
  intro ks
  induction ks with
  | nil => intro ks2 _; simp
  | cons k r ih =>
    intro ks2 h
    have hk : p k = false := h k (List.mem_cons_self _ _)
    simp only [List.cons_append, List.findIdx_cons, Bool.cond_eq_ite]
    rw [if_neg (by simp [hk]), ih ks2 (fun a ha => h a (List.mem_cons_of_mem _ ha))]
    simp [List.length_cons]
    omega

theorem findIdx_lt_length_of_exists (p : String → Bool) :
    ∀ (ks : List String), (∃ a ∈ ks, p a = true) → List.findIdx p ks < ks.length := by
  intro ks
  induction ks with
  | nil => intro h; simp at h
  | cons k r ih =>
    intro h
    by_cases hk : p k
    · simp [List.findIdx_cons, hk]
    · rcases h with ⟨a, ha, hpa⟩
      rcases List.mem_cons.mp ha with h1 | h1
      · subst h1; exact absurd hpa hk
      · simp only [List.findIdx_cons, Bool.cond_eq_ite]
        rw [if_neg (by simpa using hk)]
        simp only [List.length_cons]
        exact Nat.succ_lt_succ (ih ⟨a, h1, hpa⟩)

theorem rank_setKey_of_mem {α : Type} (l : List (String × α)) (k : String) (v : α)
    (h : k ∈ keysOf l) (x : String) : rankOf (setKey l k v) x = rankOf l x := by
  unfold rankOf
  rw [keys_setKey_of_mem l k v h]

theorem rank_setKey_fresh_other {α : Type} (l : List (String × α)) (k : String) (v : α)
    (hk : k ∉ keysOf l) (x : String) (hx : x ∈ keysOf l) :
    rankOf (setKey l k v) x = rankOf l x := by
  unfold rankOf
  rw [setKey_of_not_mem l k v hk]
  have hkeys : keysOf (l ++ [(k, v)]) = keysOf l ++ [k] := by simp [keysOf]
  rw [hkeys]
  exact findIdx_append_of_exists _ _ _ ⟨x, hx, by simp⟩

theorem rank_setKey_fresh_self {α : Type} (l : List (String × α)) (k : String) (v : α)
    (hk : k ∉ keysOf l) : rankOf (setKey l k v) k = l.length := by
  unfold rankOf
  rw [setKey_of_not_mem l k v hk]
  have hkeys : keysOf (l ++ [(k, v)]) = keysOf l ++ [k] := by simp [keysOf]
  rw [hkeys]
  rw [findIdx_append_of_none _ _ _ (fun a ha => by
    simp only [decide_eq_false_iff_not]
    intro hak
    exact hk (hak ▸ ha))]
  simp [List.findIdx_cons, keysOf]

theorem rank_lt_length_of_mem {α : Type} (l : List (String × α)) (x : String)
    (hx : x ∈ keysOf l) : rankOf l x < l.length := by
  unfold rankOf
  have h2 := findIdx_lt_length_of_exists (fun k => decide (k = x)) (keysOf l) ⟨x, hx, by simp⟩
  have h3 : (keysOf l).length = l.length := by simp [keysOf]
  omega

/-! ### Digit-string lemmas -/

theorem natCharsAux_fuel :
    ∀ (n f1 f2 : Nat), n < f1 → n < f2 → natCharsAux f1 n = natCharsAux f2 n := by
  intro n
  induction n using Nat.strong_induction_on with
  | _ n ih =>
    intro f1 f2 h1 h2
    rcases f1 with _ | g1
    · omega
    · rcases f2 with _ | g2
      · omega
      · simp only [natCharsAux]
        by_cases hn : n < 10
        · rw [if_pos hn, if_pos hn]
        · rw [if_neg hn, if_neg hn]
          have hlt : n / 10 < n := Nat.div_lt_self (by omega) (by omega)
          rw [ih (n / 10) hlt g1 g2 (by omega) (by omega)]

theorem natChars_eq (n : Nat) :
    natChars n = if n < 10 then [digitChar n]
      else natChars (n / 10) ++ [digitChar (n % 10)] := by
  by_cases hn : n < 10
  · rw [if_pos hn]
    unfold natChars
    simp only [natCharsAux]
    rw [if_pos hn]
  · rw [if_neg hn]
    have hlt : n / 10 < n := Nat.div_lt_self (by omega) (by omega)
    have h1 : natCharsAux (n + 1) n = natCharsAux n (n / 10) ++ [digitChar (n % 10)] := by
      simp only [natCharsAux]
      rw [if_neg hn]
    show natCharsAux (n + 1) n = _
    rw [h1, natCharsAux_fuel (n / 10) n (n / 10 + 1) hlt (by omega)]
    rfl

theorem digitChar_props (d : Nat) :
    (digitChar d).isWhitespace = false ∧ digitChar d ≠ nulC ∧ digitChar d ≠ '|' ∧
      digitChar d ≠ '\\' ∧ digitChar d ≠ ',' ∧ (digitChar d).isDigit = true := by
  unfold digitChar
  split <;> exact (by decide)

theorem natChars_props (n : Nat) :
    ∀ c ∈ natChars n, c.isWhitespace = false ∧ c ≠ nulC ∧ c ≠ '|' ∧ c ≠ '\\' ∧ c ≠ ',' := by
  induction n using Nat.strong_induction_on with
  | _ n ih =>
    rw [natChars_eq]
    split
    · intro c hc
      simp only [List.mem_singleton] at hc
      subst hc
      have h := digitChar_props n
      exact ⟨h.1, h.2.1, h.2.2.1, h.2.2.2.1, h.2.2.2.2.1⟩
    · intro c hc
      rcases List.mem_append.mp hc with h | h
      · exact ih _ (Nat.div_lt_self (by omega) (by omega)) c h
      · simp only [List.mem_singleton] at h
        subst h
        have h := digitChar_props (n % 10)
        exact ⟨h.1, h.2.1, h.2.2.1, h.2.2.2.1, h.2.2.2.2.1⟩

theorem natChars_ne_nil (n : Nat) : natChars n ≠ [] := by
  rw [natChars_eq]
  split <;> simp

theorem digitChar_toNat (d : Nat) (h : d < 10) : (digitChar d).toNat = 48 + d := by
  interval_cases d <;> decide

theorem charsToNat_natChars (n : Nat) : charsToNat (natChars n) = n := by
  induction n using Nat.strong_induction_on with
  | _ n ih =>
    rw [natChars_eq]
    split
    · rename_i h
      simp only [charsToNat, List.foldl_cons, List.foldl_nil]
      rw [digitChar_toNat n h]
      omega
    · rename_i h
      have hmod : n % 10 < 10 := Nat.mod_lt _ (by omega)
      have hdiv := ih (n / 10) (Nat.div_lt_self (by omega) (by omega))
      simp only [charsToNat, List.foldl_append, List.foldl_cons, List.foldl_nil]
      simp only [charsToNat] at hdiv
      rw [hdiv, digitChar_toNat _ hmod]
      omega

theorem natChars_inj (a b : Nat) (h : natChars a = natChars b) : a = b := by
  have ha := charsToNat_natChars a
  have hb := charsToNat_natChars b
  rw [h] at ha
  omega

/-! ### Separator-splitting lemmas -/

theorem append_sep_inj (sep : Char) :
    ∀ (a1 a2 b1 b2 : List Char), sep ∉ a1 → sep ∉ a2 →
      a1 ++ sep :: b1 = a2 ++ sep :: b2 → a1 = a2 ∧ b1 = b2 := by
  intro a1
  induction a1 with
  | nil =>
    intro a2 b1 b2 _ h2 h
    cases a2 with
    | nil => simpa using h
    | cons x r =>
      simp only [List.nil_append, List.cons_append, List.cons.injEq] at h
      exact absurd (h.1 ▸ List.mem_cons_self x r) h2
  | cons x r ih =>
    intro a2 b1 b2 h1 h2 h
    cases a2 with
    | nil =>
      simp only [List.nil_append, List.cons_append, List.cons.injEq] at h
      exact absurd (h.1 ▸ List.mem_cons_self x r) h1
    | cons y r2 =>
      simp only [List.cons_append, List.cons.injEq] at h
      obtain ⟨hxy, h⟩ := h
      have hr := ih r2 b1 b2 (fun hm => h1 (List.mem_cons_of_mem _ hm))
        (fun hm => h2 (List.mem_cons_of_mem _ hm)) h
      exact ⟨by rw [hxy, hr.1], hr.2⟩

theorem take_len_append (a b : List Char) : (a ++ b).take a.length = a := by
  induction a with
  | nil => simp
  | cons x r ih => simp [ih]

theorem drop_len_succ_append (a : List Char) (x : Char) (b : List Char) :
    (a ++ x :: b).drop (a.length + 1) = b := by
  induction a with
  | nil => simp
  | cons y r ih => simpa using ih

theorem pyFindChar_first (c0 : Char) :
    ∀ (pre post : List Char), c0 ∉ pre →
      pyFindChar (pre ++ c0 :: post) c0 = (pre.length : Int) := by
  intro pre
  induction pre with
  | nil => intro post _; simp [pyFindChar]
  | cons x r ih =>
    intro post h
    have hx : x ≠ c0 := fun hh => h (hh ▸ List.mem_cons_self x r)
    have hr := ih post (fun hm => h (List.mem_cons_of_mem _ hm))
    have hstep : pyFindChar ((x :: r) ++ c0 :: post) c0 =
        if x = c0 then 0
        else (if pyFindChar (r ++ c0 :: post) c0 < 0 then -1
              else pyFindChar (r ++ c0 :: post) c0 + 1) := rfl
    rw [hstep, if_neg hx, hr]
    have h0 : ¬((r.length : Int) < 0) := by omega
    rw [if_neg h0]
    simp only [List.length_cons]
    push_cast
    ring

/-! ### String and strip lemmas -/

theorem mk_toList (s : String) : String.mk s.toList = s := rfl

theorem toList_mk (l : List Char) : (String.mk l).toList = l := rfl

theorem toList_inj (s t : String) (h : s.toList = t.toList) : s = t := by
  have h2 : String.mk s.toList = String.mk t.toList := congrArg String.mk h
  rwa [mk_toList, mk_toList] at h2

theorem dropWhile_cons_false {p : Char → Bool} (x : Char) (l : List Char)
    (h : p x = false) : List.dropWhile p (x :: l) = x :: l := by
  simp [List.dropWhile, h]

theorem dropWhile_eq_self_of {p : Char → Bool} (l : List Char)
    (h : ∀ c ∈ l, p c = false) : List.dropWhile p l = l := by
  cases l with
  | nil => rfl
  | cons x r => exact dropWhile_cons_false x r (h x (List.mem_cons_self _ _))

theorem head_dropWhile_false {p : Char → Bool} :
    ∀ (l : List Char) (h t2 : _), List.dropWhile p l = h :: t2 → p h = false := by
  intro l
  induction l with
  | nil => intro h t2 hh; simp [List.dropWhile] at hh
  | cons x r ih =>
    intro h t2 hh
    by_cases hx : p x
    · simp only [List.dropWhile, hx] at hh
      exact ih h t2 hh
    · rw [dropWhile_cons_false x r (by simpa using hx)] at hh
      cases hh
      simpa using hx

theorem pyStripL_no_ws (l : List Char) (h : ∀ c ∈ l, c.isWhitespace = false) :
    pyStripL l = l := by
  unfold pyStripL
  rw [dropWhile_eq_self_of l h]
  rw [dropWhile_eq_self_of l.reverse (fun c hc => h c (List.mem_reverse.mp hc))]
  exact List.reverse_reverse l

theorem pyStrip_mk_no_ws (l : List Char) (h : ∀ c ∈ l, c.isWhitespace = false) :
    pyStrip (String.mk l) = String.mk l := by
  unfold pyStrip
  rw [toList_mk, pyStripL_no_ws l h]

theorem pyStripL_idem (l : List Char) : pyStripL (pyStripL l) = pyStripL l := by
  rcases h0 : pyStripL l with _ | ⟨h, t⟩
  · rfl
  · have hu : pyStripL l =
        ((l.dropWhile Char.isWhitespace).reverse.dropWhile Char.isWhitespace).reverse := rfl
    set u := l.dropWhile Char.isWhitespace with hudef
    set v := u.reverse.dropWhile Char.isWhitespace with hvdef
    have hvr : v.reverse = h :: t := by rw [← hu, h0]
    have hsplit : u.reverse.takeWhile Char.isWhitespace ++ v = u.reverse := by
      rw [hvdef]
      exact List.takeWhile_append_dropWhile Char.isWhitespace u.reverse
    have hu2 : u = v.reverse ++ (u.reverse.takeWhile Char.isWhitespace).reverse := by
      have h3 := congrArg List.reverse hsplit
      simpa using h3.symm
    have hhead : Char.isWhitespace h = false := by
      rw [hvr] at hu2
      rcases hl : l.dropWhile Char.isWhitespace with _ | ⟨h2, t2⟩
      · rw [← hudef] at hl
        rw [hl] at hu2
        simp at hu2
      · have hfh := head_dropWhile_false l h2 t2 hl
        rw [← hudef] at hl
        rw [hl] at hu2
        simp only [List.cons_append, List.cons.injEq] at hu2
        rw [← hu2.1]
        exact hfh
    have hvne : v ≠ [] := by
      intro hv
      rw [hv] at hvr
      simp at hvr
    obtain ⟨h2, t2, hv2⟩ : ∃ h2 t2, v = h2 :: t2 := by
      rcases v with _ | ⟨a, b⟩
      · exact absurd rfl hvne
      · exact ⟨a, b, rfl⟩
    have hlast : Char.isWhitespace h2 = false :=
      head_dropWhile_false u.reverse h2 t2 (by rw [← hvdef, hv2])
    show pyStripL (h :: t) = h :: t
    unfold pyStripL
    rw [dropWhile_cons_false h t hhead]
    have hrev : (h :: t).reverse = v := by
      rw [← hvr, List.reverse_reverse]
    rw [hrev, hv2, dropWhile_cons_false h2 t2 hlast, ← hv2, hvr]

theorem pyStrip_idem (s : String) : pyStrip (pyStrip s) = pyStrip s := by
  unfold pyStrip
  rw [toList_mk, pyStripL_idem]

/-! ### split() lemmas -/

theorem splitWsAux_chunk (rest : List Char) :
    ∀ (a acc : List Char), (∀ c ∈ a, c.isWhitespace = false) →
      splitWsAux (a ++ rest) acc = splitWsAux rest (a.reverse ++ acc) := by
  intro a
  induction a with
  | nil => intro acc _; simp
  | cons c a2 ih =>
    intro acc h
    have hc : c.isWhitespace = false := h c (List.mem_cons_self _ _)
    simp only [List.cons_append, splitWsAux, hc, Bool.false_eq_true, if_false]
    show splitWsAux (a2 ++ rest) (c :: acc) = splitWsAux rest ((c :: a2).reverse ++ acc)
    rw [ih (c :: acc) (fun x hx => h x (List.mem_cons_of_mem _ hx))]
    simp

theorem splitWs_single (b : List Char) (hb : b ≠ [])
    (h : ∀ c ∈ b, c.isWhitespace = false) : splitWsAux b [] = [b] := by
  have h2 := splitWsAux_chunk [] b [] h
  simp only [List.append_nil] at h2
  rw [h2]
  simp only [splitWsAux]
  rw [if_neg (by simpa using hb)]
  simp

theorem splitWs_two (a b : List Char) (ha : a ≠ []) (hb : b ≠ [])
    (h1 : ∀ c ∈ a, c.isWhitespace = false) (h2 : ∀ c ∈ b, c.isWhitespace = false) :
    splitWsL (a ++ ' ' :: b) = [a, b] := by
  unfold splitWsL
  rw [splitWsAux_chunk (' ' :: b) a [] h1]
  simp only [List.append_nil, splitWsAux]
  rw [if_pos (by decide)]
  rw [if_neg (by simpa using ha)]
  rw [splitWs_single b hb h2]
  simp

/-! ### readObject parsing -/

theorem readObject_parse (store : List (String × List Char)) (sha : String)
    (typL szL contL : List Char)
    (hget : getKey store sha = some (typL ++ ' ' :: szL ++ nulC :: contL))
    (hty : typL ≠ []) (hsz : szL ≠ [])
    (h1 : ∀ c ∈ typL, c.isWhitespace = false ∧ c ≠ nulC)
    (h2 : ∀ c ∈ szL, c.isWhitespace = false ∧ c ≠ nulC) :
    readObject store sha = Except.ok (String.mk typL, String.mk contL) := by
  unfold readObject
  rw [hget]
  have hpre : typL ++ ' ' :: szL ++ nulC :: contL
      = (typL ++ ' ' :: szL) ++ nulC :: contL := by simp
  have hnomem : nulC ∉ typL ++ ' ' :: szL := by
    intro hm
    rcases List.mem_append.mp hm with hm | hm
    · exact (h1 nulC hm).2 rfl
    · rcases List.mem_cons.mp hm with hm | hm
      · exact absurd hm.symm (by decide)
      · exact (h2 nulC hm).2 rfl
  have hfind : pyFindChar (typL ++ ' ' :: szL ++ nulC :: contL) nulC
      = ((typL ++ ' ' :: szL).length : Int) := by
    rw [hpre]
    exact pyFindChar_first nulC (typL ++ ' ' :: szL) contL hnomem
  simp only [hfind]
  have htake : pySliceTo (typL ++ ' ' :: szL ++ nulC :: contL)
      ((typL ++ ' ' :: szL).length : Int) = typL ++ ' ' :: szL := by
    unfold pySliceTo
    rw [if_pos (by omega)]
    rw [hpre]
    have : ((typL ++ ' ' :: szL).length : Int).toNat = (typL ++ ' ' :: szL).length := by
      omega
    rw [this]
    exact take_len_append _ _
  have hdrop : pySliceFrom (typL ++ ' ' :: szL ++ nulC :: contL)
      (((typL ++ ' ' :: szL).length : Int) + 1) = contL := by
    unfold pySliceFrom
    rw [if_pos (by omega)]
    rw [hpre]
    have : (((typL ++ ' ' :: szL).length : Int) + 1).toNat
        = (typL ++ ' ' :: szL).length + 1 := by omega
    rw [this]
    exact drop_len_succ_append _ _ _
  rw [htake, hdrop]
  rw [splitWs_two typL szL hty hsz (fun c hc => (h1 c hc).1) (fun c hc => (h2 c hc).1)]

/-! ### Address injectivity -/

theorem hashPreimage_inj_data (t d1 d2 : String) (ht : nulC ∉ t.toList)
    (h : hashPreimage t d1 = hashPreimage t d2) : d1 = d2 := by
  unfold hashPreimage at h
  have hno : ∀ n : Nat, nulC ∉ t.toList ++ ' ' :: natChars n := by
    intro n hm
    rcases List.mem_append.mp hm with hm | hm
    · exact ht hm
    · rcases List.mem_cons.mp hm with hm | hm
      · exact absurd hm.symm (by decide)
      · exact (natChars_props _ nulC hm).2.1 rfl
  have h3 := append_sep_inj nulC _ _ _ _ (hno d1.utf8ByteSize) (hno d2.utf8ByteSize) h
  exact toList_inj d1 d2 h3.2

theorem hashPreimage_blob_ne_commit (d1 d2 : String) :
    hashPreimage "blob" d1 ≠ hashPreimage "commit" d2 := by
  intro h
  have hb : ("blob".toList : List Char) = ['b', 'l', 'o', 'b'] := rfl
  have hcm : ("commit".toList : List Char) = ['c', 'o', 'm', 'm', 'i', 't'] := rfl
  unfold hashPreimage at h
  rw [hb, hcm] at h
  simp at h

theorem addrOf_inj (digest : List Char → String) (dumps : CommitData → String)
    (hd : Function.Injective digest) (hj : Function.Injective dumps) :
    Function.Injective (addrOf digest dumps) := by
  intro o1 o2 h
  cases o1 with
  | blob c1 =>
    cases o2 with
    | blob c2 =>
      simp only [addrOf, hashObject] at h
      rw [hashPreimage_inj_data "blob" c1 c2 (by decide) (hd h)]
    | commit d2 =>
      simp only [addrOf, hashObject] at h
      exact absurd (hd h) (hashPreimage_blob_ne_commit c1 (dumps d2))
  | commit d1 =>
    cases o2 with
    | blob c2 =>
      simp only [addrOf, hashObject] at h
      exact absurd (hd h).symm (hashPreimage_blob_ne_commit c2 (dumps d1))
    | commit d2 =>
      simp only [addrOf, hashObject] at h
      rw [hj (hashPreimage_inj_data "commit" (dumps d1) (dumps d2) (by decide) (hd h))]

theorem addr_of_lookup {digest : List Char → String} {dumps : CommitData → String}
    {objects : List (String × Obj)} (hA : InvA digest dumps objects)
    (sha : String) (o : Obj) (h : getKey objects sha = some o) :
    addrOf digest dumps o = sha :=
  (hA _ (getKey_mem _ _ _ h)).symm

theorem lookup_value_det {digest : List Char → String} {dumps : CommitData → String}
    {objects : List (String × Obj)}
    (hd : Function.Injective digest) (hj : Function.Injective dumps)
    (hA : InvA digest dumps objects) (sha : String) (o o2 : Obj)
    (h : getKey objects sha = some o) (h2 : addrOf digest dumps o2 = sha) : o = o2 := by
  have h3 : addrOf digest dumps o = addrOf digest dumps o2 := by
    rw [addr_of_lookup hA sha o h, h2]
  exact addrOf_inj digest dumps hd hj h3

/-! ### commitV3 case equations -/

theorem commitV3_empty (digest : List Char → String) (dumps : CommitData → String)
    (msg : String) (s : GitState) (hne : pyStrip s.index = "") :
    commitV3 digest dumps msg s = (s, CommitResult.nothingToCommit) := by
  simp [commitV3, hne]

theorem commitV3_missing (digest : List Char → String) (dumps : CommitData → String)
    (msg : String) (s : GitState) (hne : pyStrip s.index ≠ "")
    (hc : getKey s.fs (pyStrip s.index) = none) :
    commitV3 digest dumps msg s =
      ({ s with index := "" }, CommitResult.stagedFileMissing (pyStrip s.index)) := by
  simp [commitV3, hne, hc]

theorem commitV3_success (digest : List Char → String) (dumps : CommitData → String)
    (msg : String) (s : GitState) (content : String) (hne : pyStrip s.index ≠ "")
    (hc : getKey s.fs (pyStrip s.index) = some content) :
    commitV3 digest dumps msg s =
      (let blobSha := hashObject digest content "blob"
       let cd : CommitData :=
         { message := msg
           timestamp := s.clock
           file := [(pyStrip s.index, blobSha)]
           parent := currentCommit s }
       let commitSha := hashObject digest (dumps cd) "commit"
       let objects2 :=
         setKey (setKey s.objects blobSha (Obj.blob content)) commitSha (Obj.commit cd)
       match currentBranchOf s.head with
       | some b =>
         ({ s with objects := objects2
                   branches := setKey s.branches b commitSha
                   index := ""
                   clock := s.clock + 1 }, CommitResult.committed commitSha)
       | none =>
         ({ s with objects := objects2
                   index := ""
                   clock := s.clock + 1 }, CommitResult.detachedHead commitSha)) := by
  simp [commitV3, hne, hc]

/-! ### Invariant preservation -/

theorem rank_setKey_pres {α : Type} (l : List (String × α)) (k : String) (v : α)
    (x : String) (hx : x ∈ keysOf l) : rankOf (setKey l k v) x = rankOf l x := by
  by_cases hk : k ∈ keysOf l
  · exact rank_setKey_of_mem l k v hk x
  · exact rank_setKey_fresh_other l k v hk x hx

theorem mem_keys_setKey_of_mem {α : Type} (l : List (String × α)) (k : String) (v : α)
    (x : String) (hx : x ∈ keysOf l) : x ∈ keysOf (setKey l k v) := by
  by_cases hk : k ∈ keysOf l
  · rw [keys_setKey_of_mem l k v hk]; exact hx
  · rw [setKey_of_not_mem l k v hk]
    have hkk : keysOf (l ++ [(k, v)]) = keysOf l ++ [k] := by simp [keysOf]
    rw [hkk]
    exact List.mem_append_left _ hx

theorem currentCommit_ok {s : GitState} (hB : InvB s.objects s.branches)
    (t : String) (h : currentCommit s = some t) :
    t = "" ∨ ∃ c0, getKey s.objects t = some (Obj.commit c0) := by
  unfold currentCommit at h
  rcases hb : currentBranchOf s.head with _ | b
  · simp [hb] at h
  · simp only [hb] at h
    rcases hg : getKey s.branches b with _ | tip
    · simp [hg] at h
    · simp only [hg, Option.some.injEq] at h
      subst h
      exact hB b tip hg

theorem blobSha_ne_commitSha (digest : List Char → String)
    (hd : Function.Injective digest) (c d : String) :
    hashObject digest c "blob" ≠ hashObject digest d "commit" := by
  intro h
  exact hashPreimage_blob_ne_commit c d (hd h)

theorem invA_setKey (digest : List Char → String) (dumps : CommitData → String)
    (objects : List (String × Obj)) (k : String) (v : Obj)
    (hA : InvA digest dumps objects) (hk : k = addrOf digest dumps v) :
    InvA digest dumps (setKey objects k v) := by
  intro e he
  rcases mem_setKey objects k v e he with he | he
  · rw [he, hk]
  · exact hA e he

theorem commit_preserves_commits (digest : List Char → String)
    (dumps : CommitData → String) (hd : Function.Injective digest)
    (hj : Function.Injective dumps) (objects : List (String × Obj))
    (hA : InvA digest dumps objects) (content : String) (cd : CommitData)
    (sha : String) (c0 : CommitData)
    (hget : getKey objects sha = some (Obj.commit c0)) :
    getKey (setKey (setKey objects (hashObject digest content "blob") (Obj.blob content))
        (hashObject digest (dumps cd) "commit") (Obj.commit cd)) sha
      = some (Obj.commit c0) := by
  by_cases hcs : sha = hashObject digest (dumps cd) "commit"
  · subst hcs
    have hdet := lookup_value_det hd hj hA _ (Obj.commit c0) (Obj.commit cd) hget rfl
    rw [getKey_setKey_self, ← hdet]
  · rw [getKey_setKey_ne _ _ _ _ hcs]
    by_cases hbs : sha = hashObject digest content "blob"
    · subst hbs
      have hdet := lookup_value_det hd hj hA _ (Obj.commit c0) (Obj.blob content) hget rfl
      exact absurd hdet (by simp)
    · rw [getKey_setKey_ne _ _ _ _ hbs]
      exact hget

theorem invC_after (digest : List Char → String) (dumps : CommitData → String)
    (hd : Function.Injective digest) (hj : Function.Injective dumps)
    (objects : List (String × Obj)) (hA : InvA digest dumps objects)
    (hC : InvC objects) (content : String) (cd : CommitData)
    (hpar : ∀ p, cd.parent = some p → p ≠ "" →
      ∃ c0, getKey objects p = some (Obj.commit c0)) :
    InvC (setKey (setKey objects (hashObject digest content "blob") (Obj.blob content))
      (hashObject digest (dumps cd) "commit") (Obj.commit cd)) := by
  intro sha c0 hget p hp hpne
  set bS := hashObject digest content "blob" with hbSdef
  set cS := hashObject digest (dumps cd) "commit" with hcSdef
  set objects1 := setKey objects bS (Obj.blob content) with ho1def
  have hA1 : InvA digest dumps objects1 := invA_setKey digest dumps objects bS _ hA rfl
  have hbc : bS ≠ cS := blobSha_ne_commitSha digest hd content (dumps cd)
  by_cases hsha : sha = cS
  · subst hsha
    have hval : getKey (setKey objects1 cS (Obj.commit cd)) cS = some (Obj.commit cd) :=
      getKey_setKey_self _ _ _
    rw [hval] at hget
    have hc0 : cd = c0 := by simpa using hget
    subst hc0
    obtain ⟨d, hd0⟩ := hpar p hp hpne
    refine ⟨⟨d, commit_preserves_commits digest dumps hd hj objects hA content cd p d hd0⟩, ?_⟩
    have hpmem : p ∈ keysOf objects := mem_keys_of_getKey _ _ _ hd0
    have hpmem1 : p ∈ keysOf objects1 := mem_keys_setKey_of_mem _ _ _ _ hpmem
    by_cases hcm : cS ∈ keysOf objects1
    · have hcm0 : cS ∈ keysOf objects := by
        by_cases hbm : bS ∈ keysOf objects
        · rw [ho1def, keys_setKey_of_mem _ _ _ hbm] at hcm
          exact hcm
        · rw [ho1def, setKey_of_not_mem _ _ _ hbm] at hcm
          have hkk : keysOf (objects ++ [(bS, Obj.blob content)])
              = keysOf objects ++ [bS] := by simp [keysOf]
          rw [hkk] at hcm
          rcases List.mem_append.mp hcm with hcm | hcm
          · exact hcm
          · simp only [List.mem_singleton] at hcm
            exact absurd hcm.symm hbc
      have hso := getKey_isSome_of_mem_keys objects cS hcm0
      obtain ⟨o, ho⟩ := Option.isSome_iff_exists.mp hso
      have hoeq : o = Obj.commit cd := lookup_value_det hd hj hA cS o (Obj.commit cd) ho rfl
      subst hoeq
      obtain ⟨_, hrank⟩ := hC cS cd ho p hp hpne
      rw [rank_setKey_pres objects1 cS (Obj.commit cd) p hpmem1,
          rank_setKey_pres objects1 cS (Obj.commit cd) cS hcm,
          ho1def,
          rank_setKey_pres objects bS (Obj.blob content) p hpmem,
          rank_setKey_pres objects bS (Obj.blob content) cS hcm0]
      exact hrank
    · rw [rank_setKey_fresh_self objects1 cS (Obj.commit cd) hcm,
          rank_setKey_fresh_other objects1 cS (Obj.commit cd) hcm p hpmem1]
      exact rank_lt_length_of_mem objects1 p hpmem1
  · have hget1 : getKey objects1 sha = some (Obj.commit c0) := by
      rw [getKey_setKey_ne _ _ _ _ hsha] at hget
      exact hget
    by_cases hsb : sha = bS
    · subst hsb
      rw [getKey_setKey_self _ _ _] at hget1
      simp at hget1
    · have hget0 : getKey objects sha = some (Obj.commit c0) := by
        rw [ho1def, getKey_setKey_ne _ _ _ _ hsb] at hget1
        exact hget1
      obtain ⟨⟨d, hd0⟩, hrank⟩ := hC sha c0 hget0 p hp hpne
      refine ⟨⟨d, commit_preserves_commits digest dumps hd hj objects hA content cd p d hd0⟩, ?_⟩
      have hpmem : p ∈ keysOf objects := mem_keys_of_getKey _ _ _ hd0
      have hsmem : sha ∈ keysOf objects := mem_keys_of_getKey _ _ _ hget0
      rw [rank_setKey_pres objects1 cS (Obj.commit cd) p (mem_keys_setKey_of_mem _ _ _ _ hpmem),
          rank_setKey_pres objects1 cS (Obj.commit cd) sha (mem_keys_setKey_of_mem _ _ _ _ hsmem),
          ho1def,
          rank_setKey_pres objects bS (Obj.blob content) p hpmem,
          rank_setKey_pres objects bS (Obj.blob content) sha hsmem]
      exact hrank

theorem repoInv_commit (digest : List Char → String) (dumps : CommitData → String)
    (hd : Function.Injective digest) (hj : Function.Injective dumps)
    (hws : ∀ l, pyStrip (digest l) = digest l) (msg : String) (s : GitState)
    (hI : RepoInv digest dumps s) :
    RepoInv digest dumps (commitV3 digest dumps msg s).1 := by
  by_cases hne : pyStrip s.index = ""
  · rw [commitV3_empty digest dumps msg s hne]
    exact hI
  · rcases hc : getKey s.fs (pyStrip s.index) with _ | content
    · rw [commitV3_missing digest dumps msg s hne hc]
      exact ⟨hI.a, hI.b, hI.c, hI.ub⟩
    · rw [commitV3_success digest dumps msg s content hne hc]
      set bS := hashObject digest content "blob" with hbSdef
      set cd : CommitData :=
        { message := msg
          timestamp := s.clock
          file := [(pyStrip s.index, bS)]
          parent := currentCommit s } with hcddef
      set cS := hashObject digest (dumps cd) "commit" with hcSdef
      set objects2 :=
        setKey (setKey s.objects bS (Obj.blob content)) cS (Obj.commit cd) with ho2def
      have hA2 : InvA digest dumps objects2 := by
        refine invA_setKey digest dumps _ cS _ ?_ rfl
        exact invA_setKey digest dumps s.objects bS _ hI.a rfl
      have hC2 : InvC objects2 := by
        refine invC_after digest dumps hd hj s.objects hI.a hI.c content cd ?_
        intro p hp hpne
        have hcur : currentCommit s = some p := by
          rw [← hp]
        rcases currentCommit_ok hI.b p hcur with h0 | h0
        · exact absurd h0 hpne
        · exact h0
      have hpresB : InvB objects2 s.branches := by
        intro name tip hget
        rcases hI.b name tip hget with h0 | ⟨c0, h0⟩
        · exact Or.inl h0
        · exact Or.inr ⟨c0,
            commit_preserves_commits digest dumps hd hj s.objects hI.a content cd _ c0 h0⟩
      rcases hb : currentBranchOf s.head with _ | b
      · simp only [hb]
        exact ⟨hA2, hpresB, hC2, hI.ub⟩
      · simp only [hb]
        refine ⟨hA2, ?_, hC2, keys_nodup_setKey s.branches b cS hI.ub⟩
        intro name tip hget
        by_cases hnb : name = b
        · subst hnb
          rw [getKey_setKey_self] at hget
          have htip : tip = cS := by simpa using hget.symm
          subst htip
          have hstrip : pyStrip cS = cS := hws _
          rw [hstrip]
          exact Or.inr ⟨cd, getKey_setKey_self _ _ _⟩
        · rw [getKey_setKey_ne _ _ _ _ hnb] at hget
          exact hpresB name tip hget

theorem repoInv_initState (digest : List Char → String) (dumps : CommitData → String)
    (fs : List (String × String)) (clock : Nat) :
    RepoInv digest dumps (initState fs clock) := by
  refine ⟨?_, ?_, ?_, ?_⟩
  · intro e he
    simp [initState] at he
  · intro name tip hget
    simp only [initState, getKey] at hget
    by_cases h : name = "main"
    · left
      rw [if_pos (by rw [h])] at hget
      have : tip = "" := by simpa using hget.symm
      rw [this]
      rfl
    · rw [if_neg (fun hh : "main" = name => h hh.symm)] at hget
      simp [getKey] at hget
  · intro sha c hget
    simp [initState, getKey] at hget
  · simp [initState, keysOf]

theorem repoInv_same (digest : List Char → String) (dumps : CommitData → String)
    (s s2 : GitState) (hI : RepoInv digest dumps s)
    (ho : s2.objects = s.objects) (hbr : s2.branches = s.branches) :
    RepoInv digest dumps s2 := by
  refine ⟨?_, ?_, ?_, ?_⟩
  · rw [ho]; exact hI.a
  · rw [ho, hbr]; exact hI.b
  · rw [ho]; exact hI.c
  · rw [hbr]; exact hI.ub

theorem repoInv_init (digest : List Char → String) (dumps : CommitData → String)
    (s : GitState) (hI : RepoInv digest dumps s) :
    RepoInv digest dumps (initOp s).1 := by
  unfold initOp
  by_cases h : s.gitdirExists
  · rw [if_pos h]
    exact hI
  · rw [if_neg h]
    exact repoInv_initState digest dumps s.fs s.clock

theorem repoInv_add (digest : List Char → String) (dumps : CommitData → String)
    (path : String) (s : GitState) (hI : RepoInv digest dumps s) :
    RepoInv digest dumps (addOp path s) := by
  unfold addOp
  by_cases h : (getKey s.fs path).isSome
  · rw [if_pos h]
    exact repoInv_same digest dumps s _ hI rfl rfl
  · rw [if_neg h]
    exact hI

theorem repoInv_branchCreate (digest : List Char → String) (dumps : CommitData → String)
    (name : String) (s : GitState) (hI : RepoInv digest dumps s) :
    RepoInv digest dumps (branchCreate name s).1 := by
  unfold branchCreate
  by_cases h : (getKey s.branches name).isSome
  · rw [if_pos h]
    exact hI
  · rw [if_neg h]
    refine ⟨hI.a, ?_, hI.c, keys_nodup_setKey s.branches name _ hI.ub⟩
    intro nm tip hget
    by_cases hnb : nm = name
    · subst hnb
      rw [getKey_setKey_self] at hget
      have htip : tip = (currentCommit s).getD "" := by simpa using hget.symm
      subst htip
      rcases hcur : currentCommit s with _ | t
      · left
        simp [Option.getD]
        rfl
      · simp only [Option.getD]
        rcases currentCommit_ok hI.b t hcur with h0 | ⟨c0, h0⟩
        · left
          have hts : pyStrip t = t := by
            unfold currentCommit at hcur
            rcases hb2 : currentBranchOf s.head with _ | b2
            · simp [hb2] at hcur
            · simp only [hb2] at hcur
              rcases hg2 : getKey s.branches b2 with _ | tip2
              · simp [hg2] at hcur
              · simp only [hg2, Option.some.injEq] at hcur
                rw [← hcur]
                exact pyStrip_idem tip2
          rw [hts]
          exact h0
        · right
          have hts : pyStrip t = t := by
            unfold currentCommit at hcur
            rcases hb2 : currentBranchOf s.head with _ | b2
            · simp [hb2] at hcur
            · simp only [hb2] at hcur
              rcases hg2 : getKey s.branches b2 with _ | tip2
              · simp [hg2] at hcur
              · simp only [hg2, Option.some.injEq] at hcur
                rw [← hcur]
                exact pyStrip_idem tip2
          rw [hts]
          exact ⟨c0, h0⟩
    · rw [getKey_setKey_ne _ _ _ _ hnb] at hget
      exact hI.b nm tip hget

theorem repoInv_branchDelete (digest : List Char → String) (dumps : CommitData → String)
    (name : String) (s : GitState) (hI : RepoInv digest dumps s) :
    RepoInv digest dumps (branchDelete name s).1 := by
  unfold branchDelete
  by_cases h : (getKey s.branches name).isSome
  · rw [if_pos h]
    by_cases h2 : currentBranchOf s.head = some name
    · rw [if_pos h2]
      exact hI
    · rw [if_neg h2]
      refine ⟨hI.a, ?_, hI.c, keys_nodup_removeKey s.branches name hI.ub⟩
      intro nm tip hget
      exact hI.b nm tip (getKey_removeKey_some s.branches name nm tip hI.ub hget)
  · rw [if_neg h]
    exact hI

theorem repoInv_checkout (digest : List Char → String) (dumps : CommitData → String)
    (name : String) (s : GitState) (hI : RepoInv digest dumps s) :
    RepoInv digest dumps (checkoutOp name s) := by
  unfold checkoutOp
  by_cases h : (getKey s.branches name).isSome
  · rw [if_pos h]
    exact repoInv_same digest dumps s _ hI rfl rfl
  · rw [if_neg h]
    exact hI

theorem reachable_inv (digest : List Char → String) (dumps : CommitData → String)
    (hd : Function.Injective digest) (hj : Function.Injective dumps)
    (hws : ∀ l, pyStrip (digest l) = digest l) (s : GitState)
    (hr : Reachable digest dumps s) : RepoInv digest dumps s := by
  induction hr with
  | start fs clock => exact repoInv_initState digest dumps fs clock
  | doInit _ ih => exact repoInv_init digest dumps _ ih
  | doAdd path _ ih => exact repoInv_add digest dumps path _ ih
  | doCommit msg _ ih => exact repoInv_commit digest dumps hd hj hws msg _ ih
  | doBranch name _ ih => exact repoInv_branchCreate digest dumps name _ ih
  | doDelete name _ ih => exact repoInv_branchDelete digest dumps name _ ih
  | doCheckout name _ ih => exact repoInv_checkout digest dumps name _ ih
  | doEdit path content _ ih => exact repoInv_same digest dumps _ _ ih rfl rfl
  | doRemove path _ ih => exact repoInv_same digest dumps _ _ ih rfl rfl

/-! ### Termination of the history walk -/

theorem logEnds_mono (objects : List (String × Obj)) :
    ∀ (n : Nat) (cur : Option String),
      logEnds objects n cur = true → logEnds objects (n + 1) cur = true := by
  intro n
  induction n with
  | zero =>
    intro cur h
    rcases cur with _ | sha
    · simp [logEnds]
    · by_cases hs : sha = ""
      · simp [logEnds, hs]
      · simp [logEnds, hs] at h
  | succ m ih =>
    intro cur h
    rcases cur with _ | sha
    · simp [logEnds]
    · by_cases hs : sha = ""
      · simp [logEnds, hs]
      · rcases hg : getKey objects sha with _ | o
        · simp [logEnds, hs, hg]
        · rcases o with c | c
          · simp [logEnds, hs, hg]
          · simp only [logEnds, hs, hg, if_neg hs] at h ⊢
            exact ih _ h

theorem logEnds_le (objects : List (String × Obj)) (m n : Nat) (h : m ≤ n)
    (cur : Option String) (hl : logEnds objects m cur = true) :
    logEnds objects n cur = true := by
  induction n with
  | zero =>
    have hm : m = 0 := by omega
    subst hm
    exact hl
  | succ k ih =>
    by_cases hk : m = k + 1
    · subst hk
      exact hl
    · exact logEnds_mono objects k cur (ih (by omega))

theorem logEnds_of_invC (objects : List (String × Obj)) (hC : InvC objects) :
    ∀ sha c, getKey objects sha = some (Obj.commit c) →
      logEnds objects (rankOf objects sha + 1) (some sha) = true := by
  suffices hs : ∀ r sha c, rankOf objects sha = r →
      getKey objects sha = some (Obj.commit c) →
      logEnds objects (r + 1) (some sha) = true by
    intro sha c hg
    exact hs _ sha c rfl hg
  intro r
  induction r using Nat.strong_induction_on with
  | _ r ih =>
    intro sha c hr hg
    by_cases hsha : sha = ""
    · simp [logEnds, hsha]
    · have hstep : logEnds objects (r + 1) (some sha)
          = logEnds objects r c.parent := by
        simp [logEnds, hsha, hg]
      rw [hstep]
      rcases hp : c.parent with _ | p
      · rcases r with _ | m <;> simp [logEnds]
      · by_cases hpe : p = ""
        · subst hpe
          rcases r with _ | m <;> simp [logEnds]
        · obtain ⟨⟨d, hd0⟩, hrank⟩ := hC sha c hg p hp hpe
          have hr2 : rankOf objects p < r := hr ▸ hrank
          have hrec := ih (rankOf objects p) hr2 p d rfl hd0
          exact logEnds_le objects _ r (by omega) _ hrec

theorem logEnds_total (objects : List (String × Obj)) (hC : InvC objects)
    (cur : Option String) : ∃ n, logEnds objects n cur = true := by
  rcases cur with _ | sha
  · exact ⟨0, by simp [logEnds]⟩
  · by_cases hs : sha = ""
    · exact ⟨0, by simp [logEnds, hs]⟩
    · rcases hg : getKey objects sha with _ | o
      · exact ⟨1, by simp [logEnds, hs, hg]⟩
      · rcases o with c | c
        · exact ⟨1, by simp [logEnds, hs, hg]⟩
        · exact ⟨rankOf objects sha + 1, logEnds_of_invC objects hC sha c hg⟩

/-! ### The concrete witness encoders are injective and whitespace-free -/

theorem char_toNat_inj (a b : Char) (h : a.toNat = b.toNat) : a = b :=
  Char.ext (UInt32.ext h)

theorem natChars_comma_free (n : Nat) : ',' ∉ natChars n :=
  fun hm => (natChars_props n ',' hm).2.2.2.2 rfl

theorem flatEnc_inj :
    ∀ l1 l2 : List Char,
      l1.flatMap (fun c => natChars c.toNat ++ [',']) =
        l2.flatMap (fun c => natChars c.toNat ++ [',']) → l1 = l2 := by
  intro l1
  induction l1 with
  | nil =>
    intro l2 h
    rcases l2 with _ | ⟨b, r2⟩
    · rfl
    · exfalso
      have hlen := congrArg List.length h
      simp only [List.flatMap_nil, List.length_nil, List.flatMap_cons,
        List.length_append] at hlen
      have hpos : 0 < (natChars b.toNat).length :=
        List.length_pos.mpr (natChars_ne_nil _)
      omega
  | cons a r1 ih =>
    intro l2 h
    rcases l2 with _ | ⟨b, r2⟩
    · exfalso
      have hlen := congrArg List.length h
      simp only [List.flatMap_nil, List.length_nil, List.flatMap_cons,
        List.length_append] at hlen
      have hpos : 0 < (natChars a.toNat).length :=
        List.length_pos.mpr (natChars_ne_nil _)
      omega
    · simp only [List.flatMap_cons, List.append_assoc, List.singleton_append] at h
      have h2 := append_sep_inj ',' _ _ _ _ (natChars_comma_free a.toNat)
        (natChars_comma_free b.toNat) h
      have hab : a = b := char_toNat_inj a b (natChars_inj _ _ h2.1)
      rw [hab, ih r2 h2.2]

theorem digitEnc_inj : Function.Injective digitEnc := by
  intro a b h
  exact flatEnc_inj a b (congrArg String.data h)

theorem digitEnc_strip (l : List Char) : pyStrip (digitEnc l) = digitEnc l := by
  unfold digitEnc
  refine pyStrip_mk_no_ws _ ?_
  intro c hc
  rcases List.mem_flatMap.mp hc with ⟨a, _, hca⟩
  rcases List.mem_append.mp hca with hca | hca
  · exact (natChars_props _ c hca).1
  · simp only [List.mem_singleton] at hca
    rw [hca]
    decide

theorem decBlock_encBlock : ∀ (l rest : List Char), decBlock (encBlock l ++ rest) = some (l, rest) := by
  intro l
  induction l with
  | nil =>
    intro rest
    show decBlock ('|' :: rest) = some ([], rest)
    rw [decBlock.eq_def]
    simp
  | cons c r ih =>
    intro rest
    by_cases hc : c = '\\' ∨ c = '|'
    · have he : encBlock (c :: r) ++ rest = '\\' :: c :: (encBlock r ++ rest) := by
        simp [encBlock, escChars, hc]
      rw [he, decBlock.eq_def]
      simp [ih rest]
    · push_neg at hc
      have he : encBlock (c :: r) ++ rest = c :: (encBlock r ++ rest) := by
        simp [encBlock, escChars, hc.1, hc.2]
      rw [he, decBlock.eq_def]
      simp [hc.1, hc.2, ih rest]

theorem pairsFlat_inj :
    ∀ (l1 l2 : List (String × String)) (r1 r2 : List Char),
      l1.length = l2.length →
      l1.flatMap (fun p => encBlock p.1.toList ++ encBlock p.2.toList) ++ r1
        = l2.flatMap (fun p => encBlock p.1.toList ++ encBlock p.2.toList) ++ r2 →
      l1 = l2 ∧ r1 = r2 := by
  intro l1
  induction l1 with
  | nil =>
    intro l2 r1 r2 hlen h
    have hl2 : l2 = [] := List.length_eq_zero.mp (by simpa using hlen.symm)
    subst hl2
    exact ⟨rfl, by simpa using h⟩
  | cons a r ih =>
    intro l2 r1 r2 hlen h
    rcases l2 with _ | ⟨b, r2'⟩
    · simp at hlen
    · obtain ⟨a1, a2⟩ := a
      obtain ⟨b1, b2⟩ := b
      simp only [List.flatMap_cons, List.append_assoc] at h
      have h1 := congrArg decBlock h
      rw [decBlock_encBlock, decBlock_encBlock] at h1
      simp only [Option.some.injEq, Prod.mk.injEq] at h1
      obtain ⟨hfst, hrest⟩ := h1
      have h2 := congrArg decBlock hrest
      rw [decBlock_encBlock, decBlock_encBlock] at h2
      simp only [Option.some.injEq, Prod.mk.injEq] at h2
      obtain ⟨hsnd, hrest2⟩ := h2
      have hlen2 : r.length = r2'.length := by simpa using hlen
      obtain ⟨hr, hrr⟩ := ih r2' r1 r2 hlen2 hrest2
      refine ⟨?_, hrr⟩
      rw [toList_inj _ _ hfst, toList_inj _ _ hsnd, hr]

theorem encCD_inj : Function.Injective encCD := by
  intro d1 d2 h
  obtain ⟨m1, t1, f1, p1⟩ := d1
  obtain ⟨m2, t2, f2, p2⟩ := d2
  have h0 := congrArg String.data h
  simp only [encCD, List.append_assoc] at h0
  have h1 := congrArg decBlock h0
  rw [decBlock_encBlock, decBlock_encBlock] at h1
  simp only [Option.some.injEq, Prod.mk.injEq] at h1
  obtain ⟨hm, hrest1⟩ := h1
  have h2 := congrArg decBlock hrest1
  rw [decBlock_encBlock, decBlock_encBlock] at h2
  simp only [Option.some.injEq, Prod.mk.injEq] at h2
  obtain ⟨ht, hrest2⟩ := h2
  have h3 := congrArg decBlock hrest2
  rw [decBlock_encBlock, decBlock_encBlock] at h3
  simp only [Option.some.injEq, Prod.mk.injEq] at h3
  obtain ⟨hlen, hrest3⟩ := h3
  obtain ⟨hfile, hpar⟩ := pairsFlat_inj f1 f2 _ _ (natChars_inj _ _ hlen) hrest3
  have hparent : p1 = p2 := by
    rcases p1 with _ | s1 <;> rcases p2 with _ | s2 <;> simp only at hpar
    · rfl
    · simp at hpar
    · simp at hpar
    · simp only [List.cons.injEq, true_and] at hpar
      have hb2 : encBlock s1.toList ++ ([] : List Char)
          = encBlock s2.toList ++ ([] : List Char) := by rw [hpar]
      have hb3 := congrArg decBlock hb2
      rw [decBlock_encBlock, decBlock_encBlock] at hb3
      simp only [Option.some.injEq, Prod.mk.injEq] at hb3
      rw [toList_inj _ _ hb3.1]
  simp only [CommitData.mk.injEq]
  exact ⟨toList_inj _ _ hm, natChars_inj _ _ ht, hfile, hparent⟩

/-! ### Claim theorems -/

/-- C2: for every string content `c` and every kind `k` in (blob, commit),
storing `c` under its hash address (`_store_object` after `_hash_object`)
and then reading that address back with `_read_object` returns exactly the
pair `(k, c)`: the kind and the full original content, unchanged.  This
holds in any prior store state and for any digest function. -/
theorem c2_put_get_roundtrip (digest : List Char → String)
    (store : List (String × List Char)) (c k : String)
    (hk : k = "blob" ∨ k = "commit") :
    readObject (storeObject store c (hashObject digest c k) k) (hashObject digest c k)
      = Except.ok (k, c) := by
  unfold storeObject
  have hget : getKey (setKey store (hashObject digest c k) (storeEncode k c))
      (hashObject digest c k) = some (storeEncode k c) := getKey_setKey_self _ _ _
  have hparse := readObject_parse _ (hashObject digest c k) k.toList
    (natChars c.length) c.toList hget
    (by rcases hk with hk | hk <;> rw [hk] <;> decide)
    (natChars_ne_nil _)
    (by rcases hk with hk | hk <;> rw [hk] <;> decide)
    (fun c2 hc2 =>
      ⟨(natChars_props _ c2 hc2).1, (natChars_props _ c2 hc2).2.1⟩)
  rw [hparse, mk_toList, mk_toList]

/-- C2 witness at a concrete input. -/
theorem c2_put_get_roundtrip_witness :
    (("blob" : String) = "blob" ∨ ("blob" : String) = "commit") ∧
    readObject
      (storeObject [] "hi" (hashObject String.mk "hi" "blob") "blob")
      (hashObject String.mk "hi" "blob") = Except.ok ("blob", "hi") :=
  ⟨Or.inl rfl, c2_put_get_roundtrip String.mk [] "hi" "blob" (Or.inl rfl)⟩

/-- C5: the claim says the decompressed bytes that `_store_object` writes
are exactly the canonical encoding `_hash_object` hashed, with the length
field equal to the UTF-8 byte length.  The code disagrees with itself:
`_store_object` records `len(data)` (code points) while `_hash_object`
hashes `len(data.encode("utf-8"))` (bytes).  At the one-character content
`é` (1 code point, 2 UTF-8 bytes) the store writes `blob 1<NUL>é` while
the hash preimage is `blob 2<NUL>é`. -/
theorem c5_store_encoding_differs_from_hash_preimage :
    storeEncode "blob" "é" ≠ hashPreimage "blob" "é" ∧
    ("é" : String).length = 1 ∧ ("é" : String).utf8ByteSize = 2 := by
  refine ⟨?_, ?_, ?_⟩ <;> decide

/-- C8 counterexample: the claim says `_read_object` validates that the
recorded length matches the content length and reports a `CorruptObject`
error on disagreement.  At address `ab` the store holds `blob 5<NUL>xy`
(recorded length 5, actual content length 2) and `_read_object` happily
returns `("blob", "xy")` with no error at all. -/
theorem c8_counterexample_no_validation :
    readObject [("ab", "blob 5".toList ++ nulC :: "xy".toList)] "ab"
      = Except.ok ("blob", "xy") ∧ ("xy" : String).length ≠ 5 := by
  refine ⟨?_, ?_⟩
  · rfl
  · decide

/-- C8 amended: for every address present in the object store whose entry
decomposes as `kind SP size NUL content` (kind and size nonempty, free of
whitespace and NUL), `_read_object` splits on the first NUL, unpacks the
header, and returns the kind and content REGARDLESS of whether the
recorded size agrees with the content length: no validation is performed
and no corruption error is reported for a length mismatch. -/
theorem c8_get_returns_unvalidated (store : List (String × List Char)) (sha : String)
    (typL szL contL : List Char)
    (hget : getKey store sha = some (typL ++ ' ' :: szL ++ nulC :: contL))
    (hty : typL ≠ []) (hsz : szL ≠ [])
    (h1 : ∀ c ∈ typL, c.isWhitespace = false ∧ c ≠ nulC)
    (h2 : ∀ c ∈ szL, c.isWhitespace = false ∧ c ≠ nulC) :
    readObject store sha = Except.ok (String.mk typL, String.mk contL) :=
  readObject_parse store sha typL szL contL hget hty hsz h1 h2

/-- C8 witness: the amended reading at the mismatched concrete entry. -/
theorem c8_get_returns_unvalidated_witness :
    readObject [("ab", "blob 5".toList ++ nulC :: "xy".toList)] "ab"
      = Except.ok (String.mk "blob".toList, String.mk "xy".toList) :=
  c8_get_returns_unvalidated [("ab", "blob 5".toList ++ nulC :: "xy".toList)] "ab"
    "blob".toList "5".toList "xy".toList (by decide) (by decide) (by decide)
    (by decide) (by decide)

/-- C10: calling `init` on a root whose repository directory already exists
reports that the repository exists and changes nothing — HEAD, branches,
objects, index and working tree are all identical — so `init` is
idempotent. -/
theorem c10_init_idempotent :
    (∀ s : GitState, s.gitdirExists = true →
      (initOp s).1 = s ∧ (initOp s).2 = InitResult.repoExists)
    ∧ (∀ s : GitState, initOp (initOp s).1 = ((initOp s).1, InitResult.repoExists)) := by
  constructor
  · intro s h
    unfold initOp
    rw [if_pos h]
    exact ⟨rfl, rfl⟩
  · intro s
    by_cases h : s.gitdirExists <;> simp [initOp, h]

/-- C10 witness at a concrete repository state. -/
theorem c10_init_idempotent_witness :
    ((initOp (initState [] 0)).1 = initState [] 0 ∧
      (initOp (initState [] 0)).2 = InitResult.repoExists) ∧
    initOp (initOp (initState [] 0)).1 = ((initOp (initState [] 0)).1, InitResult.repoExists) :=
  ⟨c10_init_idempotent.1 (initState [] 0) rfl, c10_init_idempotent.2 (initState [] 0)⟩

/-- C9 counterexample: the claim says `create_branch` without an explicit
target creates the branch with an EMPTY tip.  In a repository whose current
branch `main` points at commit address `abc`, `branch("feature")` creates
`feature` pointing at `abc`, not at the empty tip (basic_git_3.py line 209
writes the current commit address). -/
theorem c9_counterexample_branch_tip_not_empty :
    getKey (branchCreate "feature"
      ⟨[], true, "ref: refs/heads/main", [("main", "abc")], [], "", 0⟩).1.branches
      "feature" = some "abc" ∧ ("abc" : String) ≠ "" := by
  refine ⟨?_, ?_⟩
  · rfl
  · decide

/-- C9 amended: for every branch name that does not already exist,
`branch(name)` creates the branch pointing at the current commit — the
active branch's tip, or the empty string when there is no current commit —
and leaves every other branch file unchanged; if the name already exists it
reports `already exists` and changes nothing. -/
theorem c9_branch_create (s : GitState) (name : String) :
    (getKey s.branches name = none →
      (branchCreate name s).2 = BranchResult.created ∧
      getKey (branchCreate name s).1.branches name = some ((currentCommit s).getD "") ∧
      ∀ n2, n2 ≠ name →
        getKey (branchCreate name s).1.branches n2 = getKey s.branches n2)
    ∧ (∀ t, getKey s.branches name = some t →
        branchCreate name s = (s, BranchResult.branchExists)) := by
  constructor
  · intro h
    unfold branchCreate
    rw [if_neg (by simp [h])]
    exact ⟨rfl, getKey_setKey_self _ _ _, fun n2 hn => getKey_setKey_ne _ _ _ _ hn⟩
  · intro t h
    unfold branchCreate
    rw [if_pos (by simp [h])]

/-- C9 witness: both halves at concrete repositories. -/
theorem c9_branch_create_witness :
    ((branchCreate "feature"
        ⟨[], true, "ref: refs/heads/main", [("main", "")], [], "", 0⟩).2
      = BranchResult.created ∧
     getKey (branchCreate "feature"
        ⟨[], true, "ref: refs/heads/main", [("main", "")], [], "", 0⟩).1.branches
        "feature" = some ((currentCommit
          ⟨[], true, "ref: refs/heads/main", [("main", "")], [], "", 0⟩).getD "") ∧
     ∀ n2, n2 ≠ "feature" →
       getKey (branchCreate "feature"
          ⟨[], true, "ref: refs/heads/main", [("main", "")], [], "", 0⟩).1.branches n2
        = getKey ([("main", "")] : List (String × String)) n2) ∧
    branchCreate "main" ⟨[], true, "ref: refs/heads/main", [("main", "")], [], "", 0⟩
      = (⟨[], true, "ref: refs/heads/main", [("main", "")], [], "", 0⟩,
         BranchResult.branchExists) :=
  ⟨(c9_branch_create ⟨[], true, "ref: refs/heads/main", [("main", "")], [], "", 0⟩
      "feature").1 rfl,
   (c9_branch_create ⟨[], true, "ref: refs/heads/main", [("main", "")], [], "", 0⟩
      "main").2 "" rfl⟩

/-- C7 counterexample: the claim says a commit whose staged paths all fail
to resolve leaves the staging area unchanged.  In basic_git_3.py the commit
with staged (single) path `a.txt` missing from the working tree CLEARS the
index (lines 150-151): afterwards the index is empty, not `a.txt`. -/
theorem c7_counterexample_index_cleared :
    (commitV3 digitEnc encCD "m"
      ⟨[("b", "x")], true, "ref: refs/heads/main", [("main", "")], [], "a.txt\n", 0⟩).1.index
      = "" ∧ ("a.txt\n" : String) ≠ "" := by
  refine ⟨?_, ?_⟩
  · rfl
  · decide

/-- C7 amended: whenever the staging list is non-empty but no staged path
resolves to an existing file, commit creates no object, moves no branch tip
and reports the failure.  The v2 commit (`No valid files to commit.`)
returns with the whole state — index included — unchanged; the v3 commit
(`Error: Staged file ... not found.`) leaves branches and objects unchanged
but clears the staging area. -/
theorem c7_no_valid_files (digest : List Char → String) (dumps : CommitData → String)
    (msg : String) (s : GitState) :
    (stagedLines s.index ≠ [] →
      (∀ p ∈ stagedLines s.index, getKey s.fs p = none) →
      commitV2 msg s = (s, CommitResult.noValidFiles))
    ∧ (pyStrip s.index ≠ "" → getKey s.fs (pyStrip s.index) = none →
      (commitV3 digest dumps msg s).1.branches = s.branches ∧
      (commitV3 digest dumps msg s).1.objects = s.objects ∧
      (commitV3 digest dumps msg s).1.index = "" ∧
      (commitV3 digest dumps msg s).2 = CommitResult.stagedFileMissing (pyStrip s.index)) := by
  constructor
  · intro h1 _h2
    unfold commitV2
    rw [if_neg h1]
  · intro h1 h2
    rw [commitV3_missing digest dumps msg s h1 h2]
    exact ⟨rfl, rfl, rfl, rfl⟩

/-- C7 witness: both implementations at a concrete repository whose single
staged path does not exist on disk. -/
theorem c7_no_valid_files_witness :
    commitV2 "m" ⟨[("b", "x")], true, "ref: refs/heads/main", [("main", "")], [], "a.txt\n", 0⟩
      = (⟨[("b", "x")], true, "ref: refs/heads/main", [("main", "")], [], "a.txt\n", 0⟩,
         CommitResult.noValidFiles) ∧
    ((commitV3 digitEnc encCD "m"
        ⟨[("b", "x")], true, "ref: refs/heads/main", [("main", "")], [], "a.txt\n", 0⟩).1.branches
      = [("main", "")] ∧
     (commitV3 digitEnc encCD "m"
        ⟨[("b", "x")], true, "ref: refs/heads/main", [("main", "")], [], "a.txt\n", 0⟩).1.objects
      = [] ∧
     (commitV3 digitEnc encCD "m"
        ⟨[("b", "x")], true, "ref: refs/heads/main", [("main", "")], [], "a.txt\n", 0⟩).1.index
      = "" ∧
     (commitV3 digitEnc encCD "m"
        ⟨[("b", "x")], true, "ref: refs/heads/main", [("main", "")], [], "a.txt\n", 0⟩).2
      = CommitResult.stagedFileMissing (pyStrip "a.txt\n")) :=
  ⟨(c7_no_valid_files digitEnc encCD "m"
      ⟨[("b", "x")], true, "ref: refs/heads/main", [("main", "")], [], "a.txt\n", 0⟩).1
      (by decide) (by decide),
   (c7_no_valid_files digitEnc encCD "m"
      ⟨[("b", "x")], true, "ref: refs/heads/main", [("main", "")], [], "a.txt\n", 0⟩).2
      (by decide) (by decide)⟩

/-- C6: the claim says a commit with two or more staged paths processes
each path individually, storing the present ones and skipping vanished
ones with a warning.  basic_git_3.py's commit instead reads the WHOLE
index as one path (line 138: `staged_path = f.read().strip()`): with
`a.txt` and `b.txt` staged and both present on disk, it looks for a file
literally named `a.txt\nb.txt`, fails, clears the index and commits
nothing — contradicting its own multi-path `add` and flagged by the
`raise Exception('resolve issue with commit command')` at line 341 (the
fully written per-path loop is v2's, basic_git_2.py lines 305-321). -/
theorem c6_v3_multifile_commit_fails :
    (commitV3 digitEnc encCD "m"
      ⟨[("a.txt", "ha"), ("b.txt", "hb")], true, "ref: refs/heads/main",
       [("main", "")], [], "a.txt\nb.txt\n", 0⟩).2
      = CommitResult.stagedFileMissing "a.txt\nb.txt" ∧
    (commitV3 digitEnc encCD "m"
      ⟨[("a.txt", "ha"), ("b.txt", "hb")], true, "ref: refs/heads/main",
       [("main", "")], [], "a.txt\nb.txt\n", 0⟩).1.objects = [] ∧
    (commitV3 digitEnc encCD "m"
      ⟨[("a.txt", "ha"), ("b.txt", "hb")], true, "ref: refs/heads/main",
       [("main", "")], [], "a.txt\nb.txt\n", 0⟩).1.branches = [("main", "")] ∧
    (commitV3 digitEnc encCD "m"
      ⟨[("a.txt", "ha"), ("b.txt", "hb")], true, "ref: refs/heads/main",
       [("main", "")], [], "a.txt\nb.txt\n", 0⟩).1.index = "" := by
  refine ⟨?_, ?_, ?_, ?_⟩ <;> rfl

/-- C1: for every repository state in which HEAD symbolically targets an
existing branch `b` and the (single-path) staging area resolves to an
existing file, a successful `commit(message)` sets `b`'s tip to the address
of the newly stored commit object, and the tip of every branch other than
`b` is unchanged. -/
theorem c1_commit_moves_only_active_branch (digest : List Char → String)
    (dumps : CommitData → String) (msg : String) (s : GitState) (b : String)
    (h1 : currentBranchOf s.head = some b)
    (h2 : (getKey s.branches b).isSome)
    (h3 : pyStrip s.index ≠ "")
    (h4 : (getKey s.fs (pyStrip s.index)).isSome) :
    ∃ sha, (commitV3 digest dumps msg s).2 = CommitResult.committed sha ∧
      getKey (commitV3 digest dumps msg s).1.branches b = some sha ∧
      (∃ cd, getKey (commitV3 digest dumps msg s).1.objects sha = some (Obj.commit cd)) ∧
      ∀ b2, b2 ≠ b →
        getKey (commitV3 digest dumps msg s).1.branches b2 = getKey s.branches b2 := by
  obtain ⟨content, hc⟩ := Option.isSome_iff_exists.mp h4
  rw [commitV3_success digest dumps msg s content h3 hc]
  simp only [h1]
  exact ⟨_, rfl, getKey_setKey_self _ _ _, ⟨_, getKey_setKey_self _ _ _⟩,
    fun b2 hb2 => getKey_setKey_ne _ _ _ _ hb2⟩

/-- C1 witness: a concrete two-branch repository, committing on `main`. -/
theorem c1_commit_moves_only_active_branch_witness :
    ∃ sha,
      (commitV3 digitEnc encCD "m"
        ⟨[("f", "x")], true, "ref: refs/heads/main", [("main", ""), ("dev", "old")],
         [], "f\n", 0⟩).2 = CommitResult.committed sha ∧
      getKey (commitV3 digitEnc encCD "m"
        ⟨[("f", "x")], true, "ref: refs/heads/main", [("main", ""), ("dev", "old")],
         [], "f\n", 0⟩).1.branches "main" = some sha ∧
      (∃ cd, getKey (commitV3 digitEnc encCD "m"
        ⟨[("f", "x")], true, "ref: refs/heads/main", [("main", ""), ("dev", "old")],
         [], "f\n", 0⟩).1.objects sha = some (Obj.commit cd)) ∧
      ∀ b2, b2 ≠ "main" →
        getKey (commitV3 digitEnc encCD "m"
          ⟨[("f", "x")], true, "ref: refs/heads/main", [("main", ""), ("dev", "old")],
           [], "f\n", 0⟩).1.branches b2
          = getKey ([("main", ""), ("dev", "old")] : List (String × String)) b2 :=
  c1_commit_moves_only_active_branch digitEnc encCD "m"
    ⟨[("f", "x")], true, "ref: refs/heads/main", [("main", ""), ("dev", "old")],
     [], "f\n", 0⟩ "main" (by decide) (by decide) (by decide) (by decide)

/-- C3: every commit the system creates has as parent exactly what
`_get_current_commit` resolved at the moment of creation — the active
branch's tip (the empty address for the first commit on an unborn branch,
which the history walk treats as terminal).  Assuming the design's
collision-freedom of the digest and of the commit serialization, in every
reachable repository state the `log` loop terminates from any starting
address: parent links never cycle, because a commit's parent is always an
object stored strictly earlier. -/
theorem c3_commits_form_acyclic_history (digest : List Char → String)
    (dumps : CommitData → String) (hd : Function.Injective digest)
    (hj : Function.Injective dumps) (hws : ∀ l, pyStrip (digest l) = digest l) :
    (∀ (s : GitState) (msg sha : String),
        ((commitV3 digest dumps msg s).2 = CommitResult.committed sha ∨
         (commitV3 digest dumps msg s).2 = CommitResult.detachedHead sha) →
        ∃ cd, getKey (commitV3 digest dumps msg s).1.objects sha
            = some (Obj.commit cd) ∧ cd.parent = currentCommit s) ∧
    (∀ s : GitState, Reachable digest dumps s →
        ∀ cur : Option String, ∃ n, logEnds s.objects n cur = true) := by
  constructor
  · intro s msg sha hres
    by_cases hne : pyStrip s.index = ""
    · rw [commitV3_empty digest dumps msg s hne] at hres
      simp at hres
    · rcases hc : getKey s.fs (pyStrip s.index) with _ | content
      · rw [commitV3_missing digest dumps msg s hne hc] at hres
        simp at hres
      · rw [commitV3_success digest dumps msg s content hne hc] at hres ⊢
        rcases hb : currentBranchOf s.head with _ | b
        · simp only [hb] at hres ⊢
          rcases hres with hres | hres
          · simp at hres
          · have hsha : hashObject digest
                (dumps { message := msg
                         timestamp := s.clock
                         file := [(pyStrip s.index, hashObject digest content "blob")]
                         parent := currentCommit s }) "commit" = sha := by
              simpa using hres
            subst hsha
            exact ⟨_, getKey_setKey_self _ _ _, rfl⟩
        · simp only [hb] at hres ⊢
          rcases hres with hres | hres
          · have hsha : hashObject digest
                (dumps { message := msg
                         timestamp := s.clock
                         file := [(pyStrip s.index, hashObject digest content "blob")]
                         parent := currentCommit s }) "commit" = sha := by
              simpa using hres
            subst hsha
            exact ⟨_, getKey_setKey_self _ _ _, rfl⟩
          · simp at hres
  · intro s hr cur
    exact logEnds_total s.objects (reachable_inv digest dumps hd hj hws s hr).c cur

/-- C3 witness: the hypotheses hold for the concrete injective
whitespace-free encoders, and the conclusions instantiate at a concrete
commit and a concrete reachable state. -/
theorem c3_commits_form_acyclic_history_witness :
    Function.Injective digitEnc ∧ Function.Injective encCD ∧
    (∃ cd, getKey (commitV3 digitEnc encCD "m"
        ⟨[("f", "x")], true, "ref: refs/heads/main", [("main", "")], [], "f\n", 0⟩).1.objects
        (hashObject digitEnc (encCD
          { message := "m"
            timestamp := 0
            file := [("f", hashObject digitEnc "x" "blob")]
            parent := some "" }) "commit")
      = some (Obj.commit cd) ∧
      cd.parent = currentCommit
        ⟨[("f", "x")], true, "ref: refs/heads/main", [("main", "")], [], "f\n", 0⟩) ∧
    (∃ n, logEnds (initState [] 0).objects n (some "deadbeef") = true) := by
  have h := c3_commits_form_acyclic_history digitEnc encCD digitEnc_inj encCD_inj
    digitEnc_strip
  refine ⟨digitEnc_inj, encCD_inj, ?_, h.2 (initState [] 0) (Reachable.start [] 0) _⟩
  exact h.1 ⟨[("f", "x")], true, "ref: refs/heads/main", [("main", "")], [], "f\n", 0⟩
    "m" _ (Or.inl rfl)

/-- C4 counterexample: the claim says the first commit's record has
`parent == null`.  Running the scenario — init with `a.txt` containing
`hello`, stage it, `commit("first")` — the commit stored at the `main` tip
has `parent = some ""`: `_get_current_commit` returns the stripped content
of the unborn branch file, the EMPTY STRING, not `None`, and that is what
is serialized (a JSON `""`, not `null`). -/
theorem c4_counterexample_parent_is_empty_not_null :
    getKey (commitV3 digitEnc encCD "first"
        (addOp "a.txt" (initState [("a.txt", "hello")] 0))).1.branches "main"
      = some (hashObject digitEnc (encCD
          { message := "first"
            timestamp := 0
            file := [("a.txt", hashObject digitEnc "hello" "blob")]
            parent := some "" }) "commit") ∧
    getKey (commitV3 digitEnc encCD "first"
        (addOp "a.txt" (initState [("a.txt", "hello")] 0))).1.objects
        (hashObject digitEnc (encCD
          { message := "first"
            timestamp := 0
            file := [("a.txt", hashObject digitEnc "hello" "blob")]
            parent := some "" }) "commit")
      = some (Obj.commit
          { message := "first"
            timestamp := 0
            file := [("a.txt", hashObject digitEnc "hello" "blob")]
            parent := some "" }) ∧
    (some "" : Option String) ≠ none := by
  refine ⟨?_, ?_, ?_⟩
  · rfl
  · rfl
  · decide

/-- C4 amended: init an empty repo with `a.txt` containing `hello`, stage
it, `commit("first")`: the `main` tip is a commit whose file mapping is
exactly `a.txt ↦ hash_of("hello" as blob)` and whose parent is the EMPTY
string (the unborn branch's tip, which the walk treats as no parent);
editing `a.txt` to `world`, staging and committing again yields a commit
whose parent equals the first commit's address. -/
theorem c4_scenario_amended (digest : List Char → String)
    (dumps : CommitData → String) (hws : ∀ l, pyStrip (digest l) = digest l) :
    (commitV3 digest dumps "first" (addOp "a.txt" (initState [("a.txt", "hello")] 0))).2
      = CommitResult.committed (hashObject digest (dumps
          { message := "first"
            timestamp := 0
            file := [("a.txt", hashObject digest "hello" "blob")]
            parent := some "" }) "commit") ∧
    getKey (commitV3 digest dumps "first"
        (addOp "a.txt" (initState [("a.txt", "hello")] 0))).1.branches "main"
      = some (hashObject digest (dumps
          { message := "first"
            timestamp := 0
            file := [("a.txt", hashObject digest "hello" "blob")]
            parent := some "" }) "commit") ∧
    getKey (commitV3 digest dumps "first"
        (addOp "a.txt" (initState [("a.txt", "hello")] 0))).1.objects
        (hashObject digest (dumps
          { message := "first"
            timestamp := 0
            file := [("a.txt", hashObject digest "hello" "blob")]
            parent := some "" }) "commit")
      = some (Obj.commit
          { message := "first"
            timestamp := 0
            file := [("a.txt", hashObject digest "hello" "blob")]
            parent := some "" }) ∧
    (∃ sha2 cd2,
      (commitV3 digest dumps "second"
        (addOp "a.txt" (editFile "a.txt" "world"
          (commitV3 digest dumps "first"
            (addOp "a.txt" (initState [("a.txt", "hello")] 0))).1))).2
        = CommitResult.committed sha2 ∧
      getKey (commitV3 digest dumps "second"
        (addOp "a.txt" (editFile "a.txt" "world"
          (commitV3 digest dumps "first"
            (addOp "a.txt" (initState [("a.txt", "hello")] 0))).1))).1.objects sha2
        = some (Obj.commit cd2) ∧
      cd2.parent = some (hashObject digest (dumps
          { message := "first"
            timestamp := 0
            file := [("a.txt", hashObject digest "hello" "blob")]
            parent := some "" }) "commit")) := by
  refine ⟨rfl, rfl, getKey_setKey_self _ _ _, ?_⟩
  refine ⟨_, _, rfl, getKey_setKey_self _ _ _, ?_⟩
  exact congrArg some (hws _)

/-- C4 witness: the amended scenario at the concrete whitespace-free
injective digest. -/
theorem c4_scenario_amended_witness :
    (commitV3 digitEnc encCD "first" (addOp "a.txt" (initState [("a.txt", "hello")] 0))).2
      = CommitResult.committed (hashObject digitEnc (encCD
          { message := "first"
            timestamp := 0
            file := [("a.txt", hashObject digitEnc "hello" "blob")]
            parent := some "" }) "commit") ∧
    getKey (commitV3 digitEnc encCD "first"
        (addOp "a.txt" (initState [("a.txt", "hello")] 0))).1.branches "main"
      = some (hashObject digitEnc (encCD
          { message := "first"
            timestamp := 0
            file := [("a.txt", hashObject digitEnc "hello" "blob")]
            parent := some "" }) "commit") ∧
    getKey (commitV3 digitEnc encCD "first"
        (addOp "a.txt" (initState [("a.txt", "hello")] 0))).1.objects
        (hashObject digitEnc (encCD
          { message := "first"
            timestamp := 0
            file := [("a.txt", hashObject digitEnc "hello" "blob")]
            parent := some "" }) "commit")
      = some (Obj.commit
          { message := "first"
            timestamp := 0
            file := [("a.txt", hashObject digitEnc "hello" "blob")]
            parent := some "" }) ∧
    (∃ sha2 cd2,
      (commitV3 digitEnc encCD "second"
        (addOp "a.txt" (editFile "a.txt" "world"
          (commitV3 digitEnc encCD "first"
            (addOp "a.txt" (initState [("a.txt", "hello")] 0))).1))).2
        = CommitResult.committed sha2 ∧
      getKey (commitV3 digitEnc encCD "second"
        (addOp "a.txt" (editFile "a.txt" "world"
          (commitV3 digitEnc encCD "first"
            (addOp "a.txt" (initState [("a.txt", "hello")] 0))).1))).1.objects sha2
        = some (Obj.commit cd2) ∧
      cd2.parent = some (hashObject digitEnc (encCD
          { message := "first"
            timestamp := 0
            file := [("a.txt", hashObject digitEnc "hello" "blob")]
            parent := some "" }) "commit")) :=
  c4_scenario_amended digitEnc encCD digitEnc_strip
